import Mathlib

/-!
Verification of the heatmap/navigation core of the rogue-mayor repository.

This file gives a shallow embedding of the relevant Rust source files
(src/constants.rs, src/grid.rs, src/utils.rs, src/statics.rs,
src/dijkstra_map.rs, src/mobiles/mod.rs, src/mobiles/ai.rs) and proves or
refutes the frozen claims about them.

Modelling conventions:
- usize coordinates become Nat; the i8 offsets become Int.
- f64 becomes Rat, with f64::MAX rendered as the exact rational value of
  f64::MAX.  All arithmetic the program performs on in-range field values
  (small integers, scaling by -1.1 / -1.6, adding 1.0) is exact in f64 as
  well as in Rat except for the scaling coefficients themselves, which the
  idealised model treats exactly.
- Grid<T> (a Box of nested fixed-size arrays) becomes a list of rows
  carrying its shape invariants, mirroring the fixed-size array type.
- The grid dimensions WIDTH and HEIGHT are section parameters W and H so
  every theorem covers the game constants WIDTH = 200, HEIGHT = 100.
- BTreeMap<Point, Mobile> becomes an association list with the operations
  the source uses; BTreeMap<MapTag, f64> iteration becomes a list fold.
- The World struct (its declaration is not among the provided sources;
  only its users are) is modelled from the spec, see below.
-/

set_option linter.unusedTactic false
set_option exponentiation.threshold 1100
set_option maxRecDepth 100000

namespace RogueMayor

/-- src/constants.rs: the width of the playable map. -/
def WIDTH : Nat := 200

/-- src/constants.rs: the height of the playable map. -/
def HEIGHT : Nat := 100

/-- src/constants.rs: the dijkstra map fleeing coefficient for cowards (-1.1). -/
def COWARDICE_COEFF : ℚ := -11/10

/-- src/constants.rs: the dijkstra map fleeing coefficient for brave souls (-1.6). -/
def BRAVERY_COEFF : ℚ := -8/5

/-- The exact rational value of f64::MAX, the sentinel used for unreachable cells
(the subtraction is evaluated in Nat so the kernel can reduce it). -/
def fMAX : ℚ := ((2^1024 - 2^971 : Nat) : ℚ)

/-- src/mobiles/ai.rs: multiplier to the weight of a desire if a source can be seen. -/
def SIGHT_BONUS : ℚ := 100

/-- src/grid.rs: a location in 2d space. -/
structure Point where
  x : Nat
  y : Nat
deriving DecidableEq, Repr

/-- src/utils.rs: generate the inclusive range [from..to], ascending or descending. -/
def inclusive_range (a b : ℤ) : List ℤ :=
  (List.range (1 + (if a < b then b - a else a - b)).toNat).map
    (fun i => if b < a then a - (i : ℤ) else a + (i : ℤ))

/-- src/utils.rs: perform a saturating addition or subtraction on a usize. -/
def signed_add (u : Nat) (s : ℤ) : Nat :=
  if s < 0 then u - s.natAbs else u + s.natAbs

/-- src/grid.rs: a grid representing some state of the world.  The Rust type is a
boxed [[T; WIDTH]; HEIGHT]; the shape is part of the type, so the model carries
the corresponding invariants. -/
structure Grid (W H : Nat) (α : Type) where
  grid : List (List α)
  h_rows : grid.length = H
  h_cols : ∀ row ∈ grid, row.length = W

namespace Grid

variable {W H : Nat} {α : Type}

/-- src/grid.rs: construct a new grid filled with a zero value. -/
def new (W H : Nat) (zero : α) : Grid W H α :=
  ⟨List.replicate H (List.replicate W zero), by simp, by
    intro row hrow
    rw [List.eq_of_mem_replicate hrow]
    simp⟩

/-- src/grid.rs: look up a point in a grid (grid[p.y][p.x]). -/
def at_ [Inhabited α] (g : Grid W H α) (p : Point) : α :=
  (g.grid.getD p.y []).getD p.x default

/-- src/grid.rs: set a point in a grid (grid[p.y][p.x] = val). -/
def set (g : Grid W H α) (p : Point) (val : α) : Grid W H α :=
  ⟨g.grid.set p.y ((g.grid.getD p.y []).set p.x val), by
    rw [List.length_set]; exact g.h_rows, by
    intro row hrow
    by_cases hy : p.y < g.grid.length
    · rcases List.mem_or_eq_of_mem_set hrow with h | h
      · exact g.h_cols row h
      · subst h
        rw [List.length_set, List.getD_eq_getElem?_getD,
          List.getElem?_eq_getElem hy, Option.getD_some]
        exact g.h_cols _ (List.getElem_mem hy)
    · rw [List.set_eq_of_length_le (Nat.le_of_not_lt hy)] at hrow
      exact g.h_cols row hrow⟩

theorem ext' {g₁ g₂ : Grid W H α} (h : g₁.grid = g₂.grid) : g₁ = g₂ := by
  cases g₁; cases g₂; simp_all

instance [DecidableEq α] : DecidableEq (Grid W H α) := fun g₁ g₂ =>
  decidable_of_iff (g₁.grid = g₂.grid) ⟨ext', fun h => by rw [h]⟩

theorem at_eq [Inhabited α] (g : Grid W H α) (p : Point) :
    g.at_ p = ((g.grid[p.y]?).getD [])[p.x]?.getD default := by
  simp [at_]

theorem at_new [Inhabited α] (z : α) (p : Point) (hx : p.x < W) (hy : p.y < H) :
    (Grid.new W H z).at_ p = z := by
  rw [at_eq]
  simp [new, List.getElem?_replicate, hx, hy]

theorem at_set_self [Inhabited α] (g : Grid W H α) (p : Point) (v : α)
    (hx : p.x < W) (hy : p.y < H) : (g.set p v).at_ p = v := by
  have hylen : p.y < g.grid.length := by rw [g.h_rows]; exact hy
  have hrow : (g.grid.getD p.y []).length = W := by
    rw [List.getD_eq_getElem?_getD, List.getElem?_eq_getElem hylen, Option.getD_some]
    exact g.h_cols _ (List.getElem_mem hylen)
  rw [at_eq]
  simp only [set]
  rw [List.getElem?_set_self (by simpa using hylen), Option.getD_some,
    List.getElem?_set_self (by rw [hrow]; exact hx), Option.getD_some]

theorem at_set_ne [Inhabited α] (g : Grid W H α) (p q : Point) (v : α)
    (h : q ≠ p) : (g.set p v).at_ q = g.at_ q := by
  rw [at_eq, at_eq]
  by_cases hyy : q.y = p.y
  · have hxx : q.x ≠ p.x := by
      intro hc; exact h (by cases q; cases p; simp_all)
    simp only [set]
    by_cases hylen : p.y < g.grid.length
    · rw [hyy, List.getElem?_set_self (by simpa using hylen), Option.getD_some,
        List.getD_eq_getElem?_getD, List.getElem?_eq_getElem hylen, Option.getD_some,
        List.getElem?_set_ne (by omega)]
    · rw [List.set_eq_of_length_le (Nat.le_of_not_lt hylen)]
  · simp only [set]
    rw [List.getElem?_set_ne (by omega)]

theorem eq_of_at_eq [Inhabited α] {g₁ g₂ : Grid W H α}
    (h : ∀ p : Point, p.x < W → p.y < H → g₁.at_ p = g₂.at_ p) : g₁ = g₂ := by
  apply ext'
  apply List.ext_getElem (by rw [g₁.h_rows, g₂.h_rows])
  intro y hy1 hy2
  apply List.ext_getElem
  · rw [g₁.h_cols _ (List.getElem_mem hy1), g₂.h_cols _ (List.getElem_mem hy2)]
  intro x hx1 hx2
  have hxW : x < W := by rw [g₁.h_cols _ (List.getElem_mem hy1)] at hx1; exact hx1
  have hyH : y < H := by rw [g₁.h_rows] at hy1; exact hy1
  have := h ⟨x, y⟩ hxW hyH
  rw [at_eq, at_eq] at this
  simpa [List.getElem?_eq_getElem, hy1, hy2, hx1, hx2] using this

end Grid

/-- A point is in bounds of the playable map. -/
abbrev inb (W H : Nat) (p : Point) : Prop := p.x < W ∧ p.y < H

/-- src/dijkstra_map.rs: symbolic names for the different maps. -/
inductive MapTag
  | Adventure
  | GeneralStore
  | Rest
  | Sustenance
deriving DecidableEq, Repr

/-- src/statics.rs: types of statics. -/
inductive StaticTag
  | Dungeon
  | GStoreCounter
  | InnCounter
  | Wall
  | Bed
  | Door
deriving DecidableEq, Repr

/-- src/statics.rs: things which have a fixed presence in the world. -/
structure Static where
  tag : StaticTag
  is_impassable : Bool
  is_opaque : Bool
deriving DecidableEq, Repr

namespace Static

/-- src/statics.rs: construct a new Static from its tag. -/
def new (tag : StaticTag) : Static :=
  { tag := tag
    is_impassable := match tag with
      | .Dungeon | .GStoreCounter | .InnCounter | .Wall => true
      | _ => false
    is_opaque := match tag with
      | .Wall => true
      | _ => false }

/-- src/statics.rs: the MapTag that this static contributes to. -/
def maptag (s : Static) : Option MapTag :=
  match s.tag with
  | .Dungeon => some .Adventure
  | .GStoreCounter => some .GeneralStore
  | .InnCounter => some .Sustenance
  | .Bed => some .Rest
  | .Wall | .Door => none

end Static

/-- Modelled from the spec: the World struct declaration is not among the
provided sources (only its users in main.rs, utils.rs and the mobile AI are).
Per spec section 6, the world supplies the fixture lookup used by the occupancy
and opacity oracles (a dense grid of optional statics) and the set of heatmap
source cells with their tags, used by the AI line-of-sight check. -/
structure World (W H : Nat) where
  statics : Grid W H (Option Static)
  sources : List (Point × MapTag)

/-- src/mobiles/mod.rs: a mobile.  Of the Rust struct only the fields that the
modelled operations read are kept: the biography, personality (other than
is_brave) and attribute fields never influence stepping, movement or
interaction. -/
structure Mobile where
  is_brave : Bool
  desires : List (MapTag × ℚ)
deriving DecidableEq, Repr

/-- The spatial registry BTreeMap of mobiles, as an association list. -/
abbrev Mobs := List (Point × Mobile)

/-- BTreeMap::get on the mobile registry. -/
def mobsGet (mobs : Mobs) (p : Point) : Option Mobile :=
  (mobs.find? (fun e => e.1 = p)).map (fun e => e.2)

/-- BTreeMap::remove on the mobile registry. -/
def mobsRemove (mobs : Mobs) (p : Point) : Mobs :=
  mobs.filter (fun e => e.1 ≠ p)

/-- BTreeMap::insert on the mobile registry. -/
def mobsInsert (mobs : Mobs) (p : Point) (m : Mobile) : Mobs :=
  (p, m) :: mobsRemove mobs p

/-- src/utils.rs: check if a position is occupied, by a mobile or an impassable
static. -/
def is_occupied (W H : Nat) (pos : Point) (mobs : Mobs) (world : World W H) : Bool :=
  (mobsGet mobs pos).isSome ||
    ((world.statics.at_ pos).map (fun s => s.is_impassable)).getD false

/-- src/utils.rs: take the delta between two values, and return the gradient. -/
def make_delta (start end_ : Nat) : Nat × Bool :=
  if start < end_ then (end_ - start, true) else (start - end_, false)

/-- src/utils.rs: the Bresenham stepping loop inside can_see, running counter
iterations over the position and error state. -/
def canSeeLoop (W H : Nat) (world : World W H)
    (inc_x inc_y err_inc err_dec corr_x corr_y : ℤ) :
    Nat → Point → ℤ → Bool
  | 0, _, _ => true
  | n+1, pos, err =>
    let s1 : Point × ℤ :=
      if 0 ≤ err then
        (⟨signed_add pos.x corr_x, signed_add pos.y corr_y⟩, err - err_dec)
      else (pos, err)
    let err2 := s1.2 + err_inc
    let pos2 : Point := ⟨signed_add s1.1.x inc_x, signed_add s1.1.y inc_y⟩
    if ((world.statics.at_ pos2).map (fun s => s.is_opaque)).getD false then false
    else canSeeLoop W H world inc_x inc_y err_inc err_dec corr_x corr_y n pos2 err2

/-- src/utils.rs: check if a tile can be seen from another. -/
def can_see (W H : Nat) (start end_ : Point) (world : World W H) : Bool :=
  let dix := make_delta start.x end_.x
  let diy := make_delta start.y end_.y
  if diy.1 < dix.1 then
    canSeeLoop W H world (if dix.2 then 1 else -1) 0 ((diy.1 : ℤ) * 2) ((dix.1 : ℤ) * 2)
      0 (if diy.2 then 1 else -1) dix.1 start ((diy.1 : ℤ) * 2 - (dix.1 : ℤ))
  else
    canSeeLoop W H world 0 (if diy.2 then 1 else -1) ((dix.1 : ℤ) * 2) ((diy.1 : ℤ) * 2)
      (if dix.2 then 1 else -1) 0 diy.1 start ((dix.1 : ℤ) * 2 - (diy.1 : ℤ))

/-- The 8-neighbourhood double loop of src/dijkstra_map.rs (flood_fill) and
src/mobiles/mod.rs (Mobile::ai): the list of points produced by iterating dy
and dx over inclusive_range(-1, 1) with the four boundary guards.  The centre
point itself is produced (the loops do not skip dx == 0, dy == 0). -/
def nbrCells (W H : Nat) (pos : Point) : List Point :=
  (inclusive_range (-1) 1).flatMap (fun dy =>
    if (dy < 0 ∧ pos.y = 0) ∨ (0 < dy ∧ pos.y = H - 1) then []
    else (inclusive_range (-1) 1).flatMap (fun dx =>
      if (dx < 0 ∧ pos.x = 0) ∨ (0 < dx ∧ pos.x = W - 1) then []
      else [⟨signed_add pos.x dx, signed_add pos.y dy⟩]))

/-- The neighbourhood loop of src/mobiles/ai.rs (ai_heatmap_wsum), which also
skips dy == 0 && dx == 0: the up-to-8 in-bounds neighbours, without the centre. -/
def nbrCellsNoSelf (W H : Nat) (pos : Point) : List Point :=
  (inclusive_range (-1) 1).flatMap (fun dy =>
    if (dy < 0 ∧ pos.y = 0) ∨ (0 < dy ∧ pos.y = H - 1) then []
    else (inclusive_range (-1) 1).flatMap (fun dx =>
      if (dx < 0 ∧ pos.x = 0) ∨ (0 < dx ∧ pos.x = W - 1) ∨ (dy = 0 ∧ dx = 0) then []
      else [⟨signed_add pos.x dx, signed_add pos.y dy⟩]))

theorem inclusive_range_neg_one_one : inclusive_range (-1) 1 = [-1, 0, 1] := by decide

theorem signed_add_neg_one (u : Nat) : signed_add u (-1) = u - 1 := by norm_num [signed_add]

theorem signed_add_zero (u : Nat) : signed_add u 0 = u := by norm_num [signed_add]

theorem signed_add_one (u : Nat) : signed_add u 1 = u + 1 := by norm_num [signed_add]

theorem mem_nbrCells {W H : Nat} {pos : Point} (q : Point) (hpos : inb W H pos) :
    q ∈ nbrCells W H pos ↔
      (inb W H q ∧ pos.x ≤ q.x + 1 ∧ q.x ≤ pos.x + 1 ∧ pos.y ≤ q.y + 1 ∧ q.y ≤ pos.y + 1) := by
  obtain ⟨hx, hy⟩ := hpos
  constructor
  · intro hmem
    simp only [nbrCells, inclusive_range_neg_one_one, List.mem_flatMap] at hmem
    obtain ⟨dy, hdy, hmem⟩ := hmem
    split at hmem
    · simp at hmem
    · rename_i hgy
      simp only [List.mem_flatMap] at hmem
      obtain ⟨dx, hdx, hmem⟩ := hmem
      split at hmem
      · simp at hmem
      · rename_i hgx
        simp only [List.mem_singleton] at hmem
        subst hmem
        simp only [List.mem_cons, List.mem_singleton, List.not_mem_nil, or_false] at hdy hdx
        rcases hdy with h1 | h1 | h1 <;> rcases hdx with h2 | h2 | h2 <;> subst h1 <;> subst h2 <;>
          simp only [signed_add_neg_one, signed_add_zero, signed_add_one] <;>
          refine ⟨⟨?_, ?_⟩, ?_, ?_, ?_, ?_⟩ <;> (try dsimp only) <;> omega
  · intro ⟨⟨hqx, hqy⟩, h1, h2, h3, h4⟩
    simp only [nbrCells, inclusive_range_neg_one_one, List.mem_flatMap]
    refine ⟨(q.y : ℤ) - pos.y, by simp only [List.mem_cons, List.mem_singleton]; omega, ?_⟩
    rw [if_neg (by omega)]
    simp only [List.mem_flatMap]
    refine ⟨(q.x : ℤ) - pos.x, by simp only [List.mem_cons, List.mem_singleton]; omega, ?_⟩
    rw [if_neg (by omega)]
    simp only [List.mem_singleton]
    obtain ⟨qx, qy⟩ := q
    simp only [Point.mk.injEq]
    constructor <;> (simp only [signed_add]; split_ifs <;> omega)

theorem mem_nbrCellsNoSelf {W H : Nat} {pos : Point} (q : Point) (hpos : inb W H pos) :
    q ∈ nbrCellsNoSelf W H pos ↔
      (inb W H q ∧ q ≠ pos ∧
        pos.x ≤ q.x + 1 ∧ q.x ≤ pos.x + 1 ∧ pos.y ≤ q.y + 1 ∧ q.y ≤ pos.y + 1) := by
  obtain ⟨hx, hy⟩ := hpos
  constructor
  · intro hmem
    simp only [nbrCellsNoSelf, inclusive_range_neg_one_one, List.mem_flatMap] at hmem
    obtain ⟨dy, hdy, hmem⟩ := hmem
    split at hmem
    · simp at hmem
    · rename_i hgy
      simp only [List.mem_flatMap] at hmem
      obtain ⟨dx, hdx, hmem⟩ := hmem
      split at hmem
      · simp at hmem
      · rename_i hgx
        simp only [List.mem_singleton] at hmem
        subst hmem
        simp only [List.mem_cons, List.mem_singleton, List.not_mem_nil, or_false] at hdy hdx
        have hne : ∀ a b : Nat, a ≠ pos.x ∨ b ≠ pos.y → (Point.mk a b) ≠ pos := by
          intro a b hab hc
          cases pos
          simp only [Point.mk.injEq] at hc
          rcases hab with h | h <;> simp_all
        rcases hdy with h1 | h1 | h1 <;> rcases hdx with h2 | h2 | h2 <;> subst h1 <;> subst h2 <;>
          simp only [signed_add_neg_one, signed_add_zero, signed_add_one] <;>
          refine ⟨⟨by (try dsimp only); omega, by (try dsimp only); omega⟩,
            hne _ _ (by omega), by (try dsimp only); omega, by (try dsimp only); omega,
            by (try dsimp only); omega, by (try dsimp only); omega⟩
  · intro ⟨⟨hqx, hqy⟩, hne, h1, h2, h3, h4⟩
    have hne' : q.x ≠ pos.x ∨ q.y ≠ pos.y := by
      by_contra hc
      simp only [not_or, not_not] at hc
      exact hne (by cases q; cases pos; simp_all)
    simp only [nbrCellsNoSelf, inclusive_range_neg_one_one, List.mem_flatMap]
    refine ⟨(q.y : ℤ) - pos.y, by simp only [List.mem_cons, List.mem_singleton]; omega, ?_⟩
    rw [if_neg (by omega)]
    simp only [List.mem_flatMap]
    refine ⟨(q.x : ℤ) - pos.x, by simp only [List.mem_cons, List.mem_singleton]; omega, ?_⟩
    rw [if_neg (by omega)]
    simp only [List.mem_singleton]
    obtain ⟨qx, qy⟩ := q
    simp only [Point.mk.injEq]
    simp only [ne_eq] at hne'
    constructor <;> (simp only [signed_add]; split_ifs <;> omega)

theorem nbrCells_inb {W H : Nat} {pos q : Point} (hpos : inb W H pos)
    (h : q ∈ nbrCells W H pos) : inb W H q :=
  ((mem_nbrCells q hpos).1 h).1

theorem nbrCells_symm {W H : Nat} {pos q : Point} (hpos : inb W H pos) (hq : inb W H q) :
    q ∈ nbrCells W H pos ↔ pos ∈ nbrCells W H q := by
  rw [mem_nbrCells q hpos, mem_nbrCells pos hq]
  constructor <;> (intro ⟨hb, a1, a2, a3, a4⟩; exact ⟨by assumption, by omega, by omega, by omega, by omega⟩)

theorem self_mem_nbrCells {W H : Nat} {pos : Point} (hpos : inb W H pos) :
    pos ∈ nbrCells W H pos := by
  rw [mem_nbrCells pos hpos]
  exact ⟨hpos, by omega, by omega, by omega, by omega⟩

/-- The running minimum loop of flood_fill: fold min of f over a list of points,
starting from the centre value. -/
def foldMin (f : Point → ℚ) (a : ℚ) (l : List Point) : ℚ :=
  l.foldl (fun acc q => min acc (f q)) a

theorem foldMin_le_init (f : Point → ℚ) (a : ℚ) (l : List Point) : foldMin f a l ≤ a := by
  induction l generalizing a with
  | nil => exact le_refl a
  | cons x xs ih =>
    calc foldMin f (min a (f x)) xs ≤ min a (f x) := ih _
    _ ≤ a := min_le_left _ _

theorem foldMin_le_of_mem (f : Point → ℚ) (a : ℚ) (l : List Point) (x : Point)
    (hx : x ∈ l) : foldMin f a l ≤ f x := by
  induction l generalizing a with
  | nil => simp at hx
  | cons z zs ih =>
    rcases List.mem_cons.1 hx with h | h
    · subst h
      calc foldMin f (min a (f x)) zs ≤ min a (f x) := foldMin_le_init _ _ _
      _ ≤ f x := min_le_right _ _
    · exact ih _ h

theorem foldMin_cases (f : Point → ℚ) (a : ℚ) (l : List Point) :
    foldMin f a l = a ∨ ∃ x ∈ l, foldMin f a l = f x := by
  induction l generalizing a with
  | nil => exact Or.inl rfl
  | cons z zs ih =>
    rcases ih (min a (f z)) with h | ⟨x, hx, h⟩
    · rcases min_cases a (f z) with ⟨hm, _⟩ | ⟨hm, _⟩
      · exact Or.inl (h.trans hm)
      · exact Or.inr ⟨z, List.mem_cons_self _ _, h.trans hm⟩
    · exact Or.inr ⟨x, List.mem_cons_of_mem _ hx, h⟩

/-- The state of the flood_fill loop of src/dijkstra_map.rs: the field being
relaxed and the FIFO work queue (VecDeque: pop at the front, push at the back). -/
structure FFState (W H : Nat) where
  map : Grid W H ℚ
  queue : List Point

/-- One iteration of the flood_fill while-loop of src/dijkstra_map.rs: pop a
point, compute the minimum of the field over its guarded 8-neighbourhood (and
itself), relax the point to local minimum + 1 when that is an improvement, and
if an improvement happened or the point has value 0, push every neighbour whose
value exceeds my_min + 1 and that is not occupied (checked against an empty mob
map, so against impassable statics only).  On an empty queue it is the
identity. -/
def floodStep (W H : Nat) (world : World W H) (s : FFState W H) : FFState W H :=
  match s.queue with
  | [] => s
  | pos :: rest =>
    let val := s.map.at_ pos
    let local_min := foldMin (s.map.at_) val (nbrCells W H pos)
    let my_min := local_min + 1
    let map' := if my_min < val then s.map.set pos my_min else s.map
    if my_min < val ∨ val = 0 then
      ⟨map', rest ++ (nbrCells W H pos).filter
        (fun p => decide (my_min + 1 < map'.at_ p) && ! is_occupied W H p [] world)⟩
    else ⟨map', rest⟩

theorem floodStep_empty {W H : Nat} (world : World W H) (s : FFState W H)
    (h : s.queue = []) : floodStep W H world s = s := by
  cases s with
  | mk m q => cases h; rfl

theorem floodStep_iterate_stable {W H : Nat} (world : World W H) (s : FFState W H)
    (n : Nat) (h : ((floodStep W H world)^[n] s).queue = []) :
    ∀ k, (floodStep W H world)^[n + k] s = (floodStep W H world)^[n] s := by
  intro k
  induction k with
  | zero => rfl
  | succ k ih =>
    rw [show n + (k + 1) = (n + k) + 1 by omega, Function.iterate_succ_apply', ih,
      floodStep_empty _ _ h]

theorem floodStep_commit {W H : Nat} (world : World W H) (s : FFState W H)
    (pos : Point) (rest : List Point) (hqe : s.queue = pos :: rest)
    (hc : foldMin s.map.at_ (s.map.at_ pos) (nbrCells W H pos) + 1 < s.map.at_ pos) :
    floodStep W H world s =
      ⟨s.map.set pos (foldMin s.map.at_ (s.map.at_ pos) (nbrCells W H pos) + 1),
       rest ++ (nbrCells W H pos).filter (fun p =>
         decide (foldMin s.map.at_ (s.map.at_ pos) (nbrCells W H pos) + 1 + 1 <
           (s.map.set pos (foldMin s.map.at_ (s.map.at_ pos) (nbrCells W H pos) + 1)).at_ p) &&
         ! is_occupied W H p [] world)⟩ := by
  cases s with
  | mk m q =>
    simp only at hqe
    subst hqe
    simp only [floodStep, if_pos hc, if_pos (Or.inl hc)]

theorem floodStep_zero {W H : Nat} (world : World W H) (s : FFState W H)
    (pos : Point) (rest : List Point) (hqe : s.queue = pos :: rest)
    (hnc : ¬ foldMin s.map.at_ (s.map.at_ pos) (nbrCells W H pos) + 1 < s.map.at_ pos)
    (h0 : s.map.at_ pos = 0) :
    floodStep W H world s =
      ⟨s.map,
       rest ++ (nbrCells W H pos).filter (fun p =>
         decide (foldMin s.map.at_ (s.map.at_ pos) (nbrCells W H pos) + 1 + 1 < s.map.at_ p) &&
         ! is_occupied W H p [] world)⟩ := by
  cases s with
  | mk m q =>
    simp only at hqe h0 hnc ⊢
    subst hqe
    simp only [floodStep, if_neg hnc, if_pos (Or.inr h0)]

theorem floodStep_nothing {W H : Nat} (world : World W H) (s : FFState W H)
    (pos : Point) (rest : List Point) (hqe : s.queue = pos :: rest)
    (hnc : ¬ foldMin s.map.at_ (s.map.at_ pos) (nbrCells W H pos) + 1 < s.map.at_ pos)
    (h0 : s.map.at_ pos ≠ 0) :
    floodStep W H world s = ⟨s.map, rest⟩ := by
  cases s with
  | mk m q =>
    simp only at hqe h0 hnc ⊢
    subst hqe
    have hcond : ¬ (foldMin m.at_ (m.at_ pos) (nbrCells W H pos) + 1 < m.at_ pos ∨
        m.at_ pos = 0) := by
      intro hor
      rcases hor with h | h
      · exact hnc h
      · exact h0 h
    simp only [floodStep, if_neg hnc, if_neg hcond]

/-- The number of points of the 3x3 loop is at most 9. -/
theorem nbrCells_length_le {W H : Nat} (pos : Point) : (nbrCells W H pos).length ≤ 9 := by
  simp only [nbrCells, inclusive_range_neg_one_one, List.flatMap_cons, List.flatMap_nil,
    List.append_nil, List.length_append]
  split_ifs <;> simp

/-- All current field values are of the form v + k for v in a fixed finite set V
and a natural k.  This is the value-lattice invariant that powers the
termination measure. -/
def ValsOK (W H : Nat) (V : Finset ℚ) (g : Grid W H ℚ) : Prop :=
  ∀ p : Point, inb W H p → ∃ v ∈ V, ∃ k : ℕ, g.at_ p = v + k

/-- The initial value set of a field: its values at all in-bounds cells, and 0. -/
def gridValues (W H : Nat) (g : Grid W H ℚ) : Finset ℚ :=
  insert 0 ((Finset.range H ×ˢ Finset.range W).image (fun yx => g.at_ ⟨yx.2, yx.1⟩))

theorem valsOK_gridValues {W H : Nat} (g : Grid W H ℚ) :
    ValsOK W H (gridValues W H g) g := by
  intro p hp
  refine ⟨g.at_ p, ?_, 0, by simp⟩
  simp only [gridValues, Finset.mem_insert, Finset.mem_image, Finset.mem_product,
    Finset.mem_range]
  exact Or.inr ⟨(p.y, p.x), ⟨hp.2, hp.1⟩, rfl⟩

/-- Per-value potential: the number of pairs (v, k), v in V, k natural, with
v + k strictly below x. -/
def phiVal (V : Finset ℚ) (x : ℚ) : ℕ :=
  ∑ v ∈ V.filter (fun v => v < x), ⌈x - v⌉₊

theorem phiVal_eq_sum_over {V : Finset ℚ} {x y : ℚ} (hyx : y ≤ x) :
    phiVal V y = ∑ v ∈ V.filter (fun v => v < x), ⌈y - v⌉₊ := by
  apply Finset.sum_subset
  · intro a ha
    simp only [Finset.mem_filter] at ha ⊢
    exact ⟨ha.1, lt_of_lt_of_le ha.2 hyx⟩
  · intro a ha hna
    simp only [Finset.mem_filter] at ha hna
    have hya : y ≤ a := by
      by_contra hc
      exact hna ⟨ha.1, lt_of_not_le hc⟩
    exact Nat.ceil_eq_zero.2 (by linarith)

theorem phiVal_le {V : Finset ℚ} {x y : ℚ} (hyx : y ≤ x) : phiVal V y ≤ phiVal V x := by
  rw [phiVal_eq_sum_over hyx]
  apply Finset.sum_le_sum
  intro i _
  exact Nat.ceil_le_ceil (by linarith)

theorem phiVal_lt {V : Finset ℚ} {x y : ℚ} (v : ℚ) (hv : v ∈ V) (k : ℕ)
    (hy : y = v + k) (hyx : y < x) : phiVal V y < phiVal V x := by
  rw [phiVal_eq_sum_over hyx.le]
  apply Finset.sum_lt_sum
  · intro i _
    exact Nat.ceil_le_ceil (by linarith)
  · refine ⟨v, ?_, ?_⟩
    · simp only [Finset.mem_filter]
      refine ⟨hv, ?_⟩
      have hk : (0:ℚ) ≤ (k:ℚ) := by positivity
      have : y < x := hyx
      rw [hy] at this
      linarith
    · have h1 : y - v = (k:ℚ) := by rw [hy]; ring
      rw [h1, Nat.ceil_natCast, Nat.lt_ceil]
      have h2 : (k:ℚ) = y - v := by rw [hy]; ring
      linarith

/-- Total potential of a field: sum of the per-value potentials over all cells. -/
def Phi (W H : Nat) (V : Finset ℚ) (g : Grid W H ℚ) : ℕ :=
  ∑ yx ∈ Finset.range H ×ˢ Finset.range W, phiVal V (g.at_ ⟨yx.2, yx.1⟩)

theorem Phi_lt_of_set {W H : Nat} {V : Finset ℚ} {g : Grid W H ℚ} (pos : Point)
    (hpos : inb W H pos) (y : ℚ) (hlt : y < g.at_ pos) (v : ℚ) (hv : v ∈ V) (k : ℕ)
    (hy : y = v + k) : Phi W H V (g.set pos y) < Phi W H V g := by
  apply Finset.sum_lt_sum
  · intro i _
    by_cases hip : (⟨i.2, i.1⟩ : Point) = pos
    · rw [hip, Grid.at_set_self _ _ _ hpos.1 hpos.2]
      exact phiVal_le hlt.le
    · rw [Grid.at_set_ne _ _ _ _ hip]
  · refine ⟨(pos.y, pos.x), ?_, ?_⟩
    · simp only [Finset.mem_product, Finset.mem_range]
      exact ⟨hpos.2, hpos.1⟩
    · have hpt : (⟨(pos.y, pos.x).2, (pos.y, pos.x).1⟩ : Point) = pos := rfl
      rw [hpt, Grid.at_set_self _ _ _ hpos.1 hpos.2]
      exact phiVal_lt v hv k hy hlt

/-- The number of queue entries whose current field value is 0. -/
def zCount (W H : Nat) (s : FFState W H) : ℕ :=
  s.queue.countP (fun e => decide (s.map.at_ e = 0))

theorem exists_vk_localMin {W H : Nat} {V : Finset ℚ} {s : FFState W H} (pos : Point)
    (hpos : inb W H pos) (hv : ValsOK W H V s.map) :
    ∃ v ∈ V, ∃ k : ℕ,
      foldMin s.map.at_ (s.map.at_ pos) (nbrCells W H pos) + 1 = v + (k : ℚ) := by
  rcases foldMin_cases s.map.at_ (s.map.at_ pos) (nbrCells W H pos) with hfm | ⟨c, hcm, hfm⟩
  · obtain ⟨v, hvv, k, hk⟩ := hv pos hpos
    exact ⟨v, hvv, k + 1, by rw [hfm, hk]; push_cast; ring⟩
  · obtain ⟨v, hvv, k, hk⟩ := hv c (nbrCells_inb hpos hcm)
    exact ⟨v, hvv, k + 1, by rw [hfm, hk]; push_cast; ring⟩

theorem floodStep_queue_inb {W H : Nat} (world : World W H) (s : FFState W H)
    (hq : ∀ e ∈ s.queue, inb W H e) :
    ∀ e ∈ (floodStep W H world s).queue, inb W H e := by
  cases hqe : s.queue with
  | nil =>
    rw [floodStep_empty _ _ hqe]
    exact hq
  | cons pos rest =>
    have hpos : inb W H pos := hq pos (by rw [hqe]; exact List.mem_cons_self _ _)
    have hrest : ∀ e ∈ rest, inb W H e := fun e he =>
      hq e (by rw [hqe]; exact List.mem_cons_of_mem _ he)
    by_cases hc : foldMin s.map.at_ (s.map.at_ pos) (nbrCells W H pos) + 1 < s.map.at_ pos
    · rw [floodStep_commit world s pos rest hqe hc]
      intro e he
      rcases List.mem_append.1 he with h | h
      · exact hrest e h
      · exact nbrCells_inb hpos (List.mem_of_mem_filter h)
    · by_cases h0 : s.map.at_ pos = 0
      · rw [floodStep_zero world s pos rest hqe hc h0]
        intro e he
        rcases List.mem_append.1 he with h | h
        · exact hrest e h
        · exact nbrCells_inb hpos (List.mem_of_mem_filter h)
      · rw [floodStep_nothing world s pos rest hqe hc h0]
        exact hrest

theorem floodStep_valsOK {W H : Nat} (world : World W H) (s : FFState W H) (V : Finset ℚ)
    (hq : ∀ e ∈ s.queue, inb W H e) (hv : ValsOK W H V s.map) :
    ValsOK W H V (floodStep W H world s).map := by
  cases hqe : s.queue with
  | nil =>
    rw [floodStep_empty _ _ hqe]
    exact hv
  | cons pos rest =>
    have hpos : inb W H pos := hq pos (by rw [hqe]; exact List.mem_cons_self _ _)
    by_cases hc : foldMin s.map.at_ (s.map.at_ pos) (nbrCells W H pos) + 1 < s.map.at_ pos
    · rw [floodStep_commit world s pos rest hqe hc]
      intro p hp
      by_cases hpp : p = pos
      · subst hpp
        rw [Grid.at_set_self _ _ _ hp.1 hp.2]
        exact exists_vk_localMin p hp hv
      · rw [Grid.at_set_ne _ _ _ _ hpp]
        exact hv p hp
    · by_cases h0 : s.map.at_ pos = 0
      · rw [floodStep_zero world s pos rest hqe hc h0]
        exact hv
      · rw [floodStep_nothing world s pos rest hqe hc h0]
        exact hv

theorem floodStep_dichotomy {W H : Nat} (world : World W H) (V : Finset ℚ)
    (s : FFState W H) (hne : s.queue ≠ []) (hq : ∀ e ∈ s.queue, inb W H e)
    (hv : ValsOK W H V s.map) :
    Phi W H V (floodStep W H world s).map < Phi W H V s.map ∨
    ((floodStep W H world s).map = s.map ∧
      9 * zCount W H (floodStep W H world s) + (floodStep W H world s).queue.length <
        9 * zCount W H s + s.queue.length) := by
  cases hqe : s.queue with
  | nil => exact absurd hqe hne
  | cons pos rest =>
    have hpos : inb W H pos := hq pos (by rw [hqe]; exact List.mem_cons_self _ _)
    by_cases hc : foldMin s.map.at_ (s.map.at_ pos) (nbrCells W H pos) + 1 < s.map.at_ pos
    · left
      rw [floodStep_commit world s pos rest hqe hc]
      obtain ⟨v, hvv, k, hk⟩ := exists_vk_localMin pos hpos hv
      exact Phi_lt_of_set pos hpos _ hc v hvv k hk
    · right
      by_cases h0 : s.map.at_ pos = 0
      · rw [floodStep_zero world s pos rest hqe hc h0]
        refine ⟨rfl, ?_⟩
        have hmin : s.map.at_ pos ≤ foldMin s.map.at_ (s.map.at_ pos) (nbrCells W H pos) + 1 :=
          le_of_not_lt hc
        have hF0 : (List.filter (fun p =>
            decide (foldMin s.map.at_ (s.map.at_ pos) (nbrCells W H pos) + 1 + 1 < s.map.at_ p) &&
            ! is_occupied W H p [] world) (nbrCells W H pos)).countP
            (fun e => decide (s.map.at_ e = 0)) = 0 := by
          rw [List.countP_eq_zero]
          intro e he
          have hpred := List.of_mem_filter he
          simp only [Bool.and_eq_true, decide_eq_true_eq] at hpred
          simp only [decide_eq_true_eq]
          intro hzero
          rw [hzero] at hpred
          have := hpred.1
          rw [h0] at hmin
          linarith
        have hz : zCount W H s = (rest.countP (fun e => decide (s.map.at_ e = 0))) + 1 := by
          rw [zCount, hqe, List.countP_cons]
          simp [h0]
        have hz' : zCount W H (FFState.mk s.map (rest ++ (List.filter (fun p =>
            decide (foldMin s.map.at_ (s.map.at_ pos) (nbrCells W H pos) + 1 + 1 < s.map.at_ p) &&
            ! is_occupied W H p [] world) (nbrCells W H pos)))) =
            rest.countP (fun e => decide (s.map.at_ e = 0)) := by
          simp only [zCount, List.countP_append, hF0, Nat.add_zero]
        rw [hz', hz]
        simp only [List.length_append, hqe, List.length_cons]
        have hlen : (List.filter (fun p =>
            decide (foldMin s.map.at_ (s.map.at_ pos) (nbrCells W H pos) + 1 + 1 < s.map.at_ p) &&
            ! is_occupied W H p [] world) (nbrCells W H pos)).length ≤ 9 :=
          le_trans (List.length_filter_le _ _) (nbrCells_length_le pos)
        omega
      · rw [floodStep_nothing world s pos rest hqe hc h0]
        refine ⟨rfl, ?_⟩
        have hz : zCount W H s = rest.countP (fun e => decide (s.map.at_ e = 0)) := by
          simp only [zCount, hqe, List.countP_cons, decide_eq_true_eq]
          simp [h0]
        have hz' : zCount W H (FFState.mk s.map rest) =
            rest.countP (fun e => decide (s.map.at_ e = 0)) := rfl
        rw [hz', hz]
        simp only [hqe, List.length_cons]
        omega

theorem flood_term_aux (W H : Nat) (world : World W H) (V : Finset ℚ) :
    ∀ a b : Nat, ∀ s : FFState W H, Phi W H V s.map ≤ a →
      9 * zCount W H s + s.queue.length ≤ b →
      (∀ e ∈ s.queue, inb W H e) → ValsOK W H V s.map →
      ∃ n, ((floodStep W H world)^[n] s).queue = [] := by
  intro a
  induction a with
  | zero =>
    intro b
    induction b with
    | zero =>
      intro s _ hb _ _
      refine ⟨0, ?_⟩
      rw [Function.iterate_zero_apply]
      exact List.length_eq_zero.1 (by omega)
    | succ b ihb =>
      intro s hphi hb hq hv
      by_cases hne : s.queue = []
      · exact ⟨0, hne⟩
      · rcases floodStep_dichotomy world V s hne hq hv with hlt | ⟨hmeq, hlt2⟩
        · omega
        · obtain ⟨n, hn⟩ := ihb (floodStep W H world s)
            (by rw [hmeq]; exact hphi) (by omega) (floodStep_queue_inb world s hq)
            (by rw [hmeq]; exact hv)
          exact ⟨n + 1, by rw [Function.iterate_succ_apply]; exact hn⟩
  | succ a iha =>
    intro b
    induction b with
    | zero =>
      intro s _ hb _ _
      refine ⟨0, ?_⟩
      rw [Function.iterate_zero_apply]
      exact List.length_eq_zero.1 (by omega)
    | succ b ihb =>
      intro s hphi hb hq hv
      by_cases hne : s.queue = []
      · exact ⟨0, hne⟩
      · rcases floodStep_dichotomy world V s hne hq hv with hlt | ⟨hmeq, hlt2⟩
        · obtain ⟨n, hn⟩ := iha
            (9 * zCount W H (floodStep W H world s) + (floodStep W H world s).queue.length)
            (floodStep W H world s) (by omega) (le_refl _)
            (floodStep_queue_inb world s hq) (floodStep_valsOK world s V hq hv)
          exact ⟨n + 1, by rw [Function.iterate_succ_apply]; exact hn⟩
        · obtain ⟨n, hn⟩ := ihb (floodStep W H world s)
            (by rw [hmeq]; exact hphi) (by omega) (floodStep_queue_inb world s hq)
            (by rw [hmeq]; exact hv)
          exact ⟨n + 1, by rw [Function.iterate_succ_apply]; exact hn⟩

/-- The flood_fill while-loop always empties its queue when all seeds are in
bounds (spec claim C7's subject): each commit strictly shrinks the value-lattice
potential, and every other iteration shrinks the zero-entry count weighted queue
length. -/
theorem flood_terminates (W H : Nat) (world : World W H) (s : FFState W H)
    (hq : ∀ e ∈ s.queue, inb W H e) :
    ∃ n, ((floodStep W H world)^[n] s).queue = [] :=
  flood_term_aux W H world (gridValues W H s.map) (Phi W H (gridValues W H s.map) s.map)
    (9 * zCount W H s + s.queue.length) s (le_refl _) (le_refl _) hq (valsOK_gridValues _)

/-- src/dijkstra_map.rs: flood fill out from some points.  The queue is seeded
with the minima in order; the loop then runs to completion (it terminates, by
flood_terminates).  On a seed list containing an out-of-bounds point the Rust
program would panic on the out-of-bounds grid index; all call sites in the
program pass in-bounds seeds, and the model returns the field unchanged in that
(unreachable) case. -/
def flood_fill (W H : Nat) (map : Grid W H ℚ) (minima : List Point)
    (world : World W H) : Grid W H ℚ :=
  if h : ∀ e ∈ minima, inb W H e then
    ((floodStep W H world)^[Nat.find (flood_terminates W H world ⟨map, minima⟩ h)]
      (⟨map, minima⟩ : FFState W H)).map
  else map

theorem flood_fill_eq_iterate {W H : Nat} (map : Grid W H ℚ) (minima : List Point)
    (world : World W H) (h : ∀ e ∈ minima, inb W H e) (n : Nat)
    (hn : ((floodStep W H world)^[n] (⟨map, minima⟩ : FFState W H)).queue = []) :
    flood_fill W H map minima world =
      ((floodStep W H world)^[n] (⟨map, minima⟩ : FFState W H)).map := by
  rw [flood_fill, dif_pos h]
  have hfind : ((floodStep W H world)^[Nat.find (flood_terminates W H world ⟨map, minima⟩ h)]
      (⟨map, minima⟩ : FFState W H)).queue = [] :=
    Nat.find_spec (flood_terminates W H world ⟨map, minima⟩ h)
  have hle : Nat.find (flood_terminates W H world ⟨map, minima⟩ h) ≤ n :=
    Nat.find_min' (flood_terminates W H world ⟨map, minima⟩ h) hn
  have hstab := floodStep_iterate_stable world ⟨map, minima⟩
    (Nat.find (flood_terminates W H world ⟨map, minima⟩ h)) hfind
    (n - Nat.find (flood_terminates W H world ⟨map, minima⟩ h))
  rw [show Nat.find (flood_terminates W H world ⟨map, minima⟩ h) +
      (n - Nat.find (flood_terminates W H world ⟨map, minima⟩ h)) = n by omega] at hstab
  rw [hstab]

/-- Any property preserved by floodStep holds of some empty-queue state whose
field is the flood_fill result. -/
theorem flood_fill_spec {W H : Nat} (map : Grid W H ℚ) (minima : List Point)
    (world : World W H) (h : ∀ e ∈ minima, inb W H e) (P : FFState W H → Prop)
    (hinit : P ⟨map, minima⟩) (hstep : ∀ s, P s → P (floodStep W H world s)) :
    ∃ s : FFState W H, s.queue = [] ∧ P s ∧ flood_fill W H map minima world = s.map := by
  have hiter : ∀ n, P ((floodStep W H world)^[n] (⟨map, minima⟩ : FFState W H)) := by
    intro n
    induction n with
    | zero => exact hinit
    | succ n ih =>
      rw [Function.iterate_succ_apply']
      exact hstep _ ih
  exact ⟨(floodStep W H world)^[Nat.find (flood_terminates W H world ⟨map, minima⟩ h)]
      (⟨map, minima⟩ : FFState W H),
    Nat.find_spec (flood_terminates W H world ⟨map, minima⟩ h), hiter _,
    by rw [flood_fill, dif_pos h]⟩

/-- src/dijkstra_map.rs: a Dijkstra map, or heatmap: the sources, the approach
field, and the two derived flee fields. -/
structure Map (W H : Nat) where
  sources : List Point
  approach : Grid W H ℚ
  flee_cowardly : Grid W H ℚ
  flee_bravely : Grid W H ℚ
deriving DecidableEq

/-- src/dijkstra_map.rs: a new empty map. -/
def Map.new (W H : Nat) : Map W H :=
  ⟨[], Grid.new W H fMAX, Grid.new W H fMAX, Grid.new W H fMAX⟩

/-- The row-major traversal (for y in 0..HEIGHT, for x in 0..WIDTH) used by the
reset and flee-scan loops of src/dijkstra_map.rs. -/
def rowMajor (W H : Nat) : List Point :=
  (List.range H).flatMap (fun y => (List.range W).map (fun x => ⟨x, y⟩))

theorem mem_rowMajor {W H : Nat} (p : Point) : p ∈ rowMajor W H ↔ inb W H p := by
  simp only [rowMajor, List.mem_flatMap, List.mem_map, List.mem_range]
  constructor
  · intro ⟨y, hy, x, hx, hp⟩
    subst hp
    exact ⟨hx, hy⟩
  · intro ⟨hx, hy⟩
    exact ⟨p.y, hy, p.x, hx, rfl⟩

/-- The running state of the recompute_flee scan loop of src/dijkstra_map.rs:
the two flee grids being written, and the list of minima with the minimal value
seen so far. -/
structure FleeScan (W H : Nat) where
  flee_cowardly : Grid W H ℚ
  flee_bravely : Grid W H ℚ
  minima : List Point
  minimal : ℚ

/-- src/dijkstra_map.rs: one iteration of the recompute_flee scan.  When the
approach value is not f64::MAX, both flee cells are set to the scaled approach
value and the minima set is updated from the just-written flee_cowardly cell. -/
def fleeScanStep (W H : Nat) (approach : Grid W H ℚ) (st : FleeScan W H) (p : Point) :
    FleeScan W H :=
  if approach.at_ p ≠ fMAX then
    if (st.flee_cowardly.set p (approach.at_ p * COWARDICE_COEFF)).at_ p = st.minimal then
      ⟨st.flee_cowardly.set p (approach.at_ p * COWARDICE_COEFF),
       st.flee_bravely.set p (approach.at_ p * BRAVERY_COEFF),
       st.minima ++ [p], st.minimal⟩
    else if (st.flee_cowardly.set p (approach.at_ p * COWARDICE_COEFF)).at_ p < st.minimal then
      ⟨st.flee_cowardly.set p (approach.at_ p * COWARDICE_COEFF),
       st.flee_bravely.set p (approach.at_ p * BRAVERY_COEFF),
       [p], (st.flee_cowardly.set p (approach.at_ p * COWARDICE_COEFF)).at_ p⟩
    else
      ⟨st.flee_cowardly.set p (approach.at_ p * COWARDICE_COEFF),
       st.flee_bravely.set p (approach.at_ p * BRAVERY_COEFF),
       st.minima, st.minimal⟩
  else st

/-- src/dijkstra_map.rs: the full recompute_flee scan over all cells in row-major
order, starting from the current flee grids, an empty minima list and minimal =
f64::MAX. -/
def fleeScan (W H : Nat) (approach fc fb : Grid W H ℚ) : FleeScan W H :=
  (rowMajor W H).foldl (fleeScanStep W H approach) ⟨fc, fb, [], fMAX⟩

/-- src/dijkstra_map.rs: recompute the fleeing maps: scan all cells, then smooth
the fleeing maps by flood filling both from the flee_cowardly minima. -/
def Map.recompute_flee (W H : Nat) (m : Map W H) (world : World W H) : Map W H :=
  let scan := fleeScan W H m.approach m.flee_cowardly m.flee_bravely
  { m with
    flee_cowardly := flood_fill W H scan.flee_cowardly scan.minima world
    flee_bravely := flood_fill W H scan.flee_bravely scan.minima world }

/-- src/dijkstra_map.rs: recompute the map: reset all three fields to f64::MAX,
make the goals all global minima (approach 0), flood fill the approach map from
the sources, then recompute the flee maps. -/
def Map.rebuild_from_sources (W H : Nat) (m : Map W H) (world : World W H) : Map W H :=
  let reset := (rowMajor W H).foldl
    (fun (gs : Grid W H ℚ × Grid W H ℚ × Grid W H ℚ) p =>
      (gs.1.set p fMAX, gs.2.1.set p fMAX, gs.2.2.set p fMAX))
    (m.approach, m.flee_cowardly, m.flee_bravely)
  let approach1 := m.sources.foldl (fun g s => Grid.set g s 0) reset.1
  let approach2 := flood_fill W H approach1 m.sources world
  Map.recompute_flee W H ⟨m.sources, approach2, reset.2.1, reset.2.2⟩ world

/-- src/dijkstra_map.rs: add a new source to the map without rebuilding
(sources.push). -/
def Map.add_source_no_rebuild (W H : Nat) (m : Map W H) (source : Point) : Map W H :=
  { m with sources := m.sources ++ [source] }

/-- src/dijkstra_map.rs: add a new source to the map: push it, set its approach
weight to zero, flood fill from that point only, then completely recompute the
flee maps. -/
def Map.add_source (W H : Nat) (m : Map W H) (source : Point) (world : World W H) :
    Map W H :=
  let m1 := Map.add_source_no_rebuild W H m source
  let ap1 := m1.approach.set source 0
  let ap2 := flood_fill W H ap1 [source] world
  Map.recompute_flee W H { m1 with approach := ap2 } world

/-- src/dijkstra_map.rs: remove a source from the map without rebuilding
(sources.retain). -/
def Map.remove_source_no_rebuild (W H : Nat) (m : Map W H) (source : Point) : Map W H :=
  { m with sources := m.sources.filter (fun s => s ≠ source) }

/-- src/dijkstra_map.rs: remove a source from the map, then rebuild from the
remaining sources. -/
def Map.remove_source (W H : Nat) (m : Map W H) (source : Point) (world : World W H) :
    Map W H :=
  Map.rebuild_from_sources W H (Map.remove_source_no_rebuild W H m source) world

/-- src/dijkstra_map.rs: the collection of all Dijkstra maps. -/
structure Maps (W H : Nat) where
  adventure : Map W H
  general_store : Map W H
  rest : Map W H
  sustenance : Map W H

/-- src/dijkstra_map.rs: construct empty maps. -/
def Maps.new (W H : Nat) : Maps W H :=
  ⟨Map.new W H, Map.new W H, Map.new W H, Map.new W H⟩

/-- src/dijkstra_map.rs: look up a map by tag. -/
def Maps.get (W H : Nat) (maps : Maps W H) (tag : MapTag) : Map W H :=
  match tag with
  | .Adventure => maps.adventure
  | .GeneralStore => maps.general_store
  | .Rest => maps.rest
  | .Sustenance => maps.sustenance

theorem at_foldl_set_not_mem {W H : Nat} (l : List Point) (g : Grid W H ℚ) (c : ℚ)
    (q : Point) (hq : q ∉ l) :
    (l.foldl (fun g p => Grid.set g p c) g).at_ q = g.at_ q := by
  induction l generalizing g with
  | nil => rfl
  | cons p ps ih =>
    have hqp : q ≠ p := fun hc => hq (hc ▸ List.mem_cons_self _ _)
    have hqs : q ∉ ps := fun hc => hq (List.mem_cons_of_mem _ hc)
    rw [List.foldl_cons, ih _ hqs, Grid.at_set_ne _ _ _ _ hqp]

theorem at_foldl_set_mem {W H : Nat} (l : List Point) (g : Grid W H ℚ) (c : ℚ)
    (q : Point) (hqb : inb W H q) (hq : q ∈ l) :
    (l.foldl (fun g p => Grid.set g p c) g).at_ q = c := by
  induction l generalizing g with
  | nil => simp at hq
  | cons p ps ih =>
    by_cases hqs : q ∈ ps
    · rw [List.foldl_cons, ih _ hqs]
    · have hqp : q = p := by
        rcases List.mem_cons.1 hq with h | h
        · exact h
        · exact absurd h hqs
      subst hqp
      rw [List.foldl_cons, at_foldl_set_not_mem _ _ _ _ hqs,
        Grid.at_set_self _ _ _ hqb.1 hqb.2]

theorem resetAll_eq_new {W H : Nat} (g : Grid W H ℚ) :
    (rowMajor W H).foldl (fun g p => Grid.set g p fMAX) g = Grid.new W H fMAX := by
  apply Grid.eq_of_at_eq
  intro p hx hy
  rw [at_foldl_set_mem _ _ _ _ ⟨hx, hy⟩ ((mem_rowMajor p).2 ⟨hx, hy⟩),
    Grid.at_new _ _ hx hy]

theorem resetFold_eq {W H : Nat} (l : List Point) (g1 g2 g3 : Grid W H ℚ) :
    l.foldl (fun (gs : Grid W H ℚ × Grid W H ℚ × Grid W H ℚ) p =>
        (gs.1.set p fMAX, gs.2.1.set p fMAX, gs.2.2.set p fMAX)) (g1, g2, g3) =
      (l.foldl (fun g p => Grid.set g p fMAX) g1,
       l.foldl (fun g p => Grid.set g p fMAX) g2,
       l.foldl (fun g p => Grid.set g p fMAX) g3) := by
  induction l generalizing g1 g2 g3 with
  | nil => rfl
  | cons p ps ih => exact ih _ _ _

/-- rebuild_from_sources resets all three grids, so its result depends only on
the source list and the world. -/
theorem rebuild_eq_of_sources_eq {W H : Nat} (m1 m2 : Map W H) (world : World W H)
    (h : m1.sources = m2.sources) :
    Map.rebuild_from_sources W H m1 world = Map.rebuild_from_sources W H m2 world := by
  simp only [Map.rebuild_from_sources, resetFold_eq, resetAll_eq_new, h]

theorem rebuild_sources {W H : Nat} (m : Map W H) (world : World W H) :
    (Map.rebuild_from_sources W H m world).sources = m.sources := rfl

theorem add_source_sources {W H : Nat} (m : Map W H) (source : Point) (world : World W H) :
    (Map.add_source W H m source world).sources = m.sources ++ [source] := rfl

/-- src/mobiles/mod.rs and src/mobiles/ai.rs: the set of tags with a world
source visible from pos (the locally_visible BTreeSet, used via contains). -/
def locallyVisible (W H : Nat) (pos : Point) (world : World W H) : List MapTag :=
  (world.sources.filter (fun pt => can_see W H pos pt.1 world)).map (fun pt => pt.2)

/-- src/mobiles/mod.rs (Mobile::ai): the desire-weighted sum at one candidate
cell: Σ over desires of wgt * delta, where wgt = weight * (100 if the tag is
locally visible else 1) and delta is read from the approach map when wgt > 0.0,
else from the flee map selected by is_brave. -/
def aiScore (W H : Nat) (m : Mobile) (maps : Maps W H) (vis : List MapTag)
    (c : Point) : ℚ :=
  m.desires.foldl (fun acc tw =>
    let multiplier : ℚ := if vis.contains tw.1 then 100 else 1
    let wgt := tw.2 * multiplier
    let mp := Maps.get W H maps tw.1
    let delta := (if 0 < wgt then mp.approach
      else if m.is_brave then mp.flee_bravely else mp.flee_cowardly).at_ c
    acc + wgt * delta) 0

/-- src/mobiles/ai.rs (ai_heatmap_wsum): the same weighted sum, except that the
approach map is selected when wgt >= 0.0 and the multiplier is SIGHT_BONUS. -/
def wsumScore (W H : Nat) (m : Mobile) (maps : Maps W H) (vis : List MapTag)
    (c : Point) : ℚ :=
  m.desires.foldl (fun acc tw =>
    let multiplier : ℚ := if vis.contains tw.1 then SIGHT_BONUS else 1
    let wgt := tw.2 * multiplier
    let mp := Maps.get W H maps tw.1
    let delta := (if 0 ≤ wgt then mp.approach
      else if m.is_brave then mp.flee_bravely else mp.flee_cowardly).at_ c
    acc + wgt * delta) 0

/-- src/mobiles/mod.rs: the heatmap AI: scan the guarded 3x3 neighbourhood
(including the centre), keeping the first strict minimum of the weighted sum,
starting from (pos, f64::MAX). -/
def Mobile.ai (W H : Nat) (m : Mobile) (pos : Point) (maps : Maps W H)
    (world : World W H) : Point :=
  let vis := locallyVisible W H pos world
  ((nbrCells W H pos).foldl (fun (acc : Point × ℚ) c =>
    let weight_here := aiScore W H m maps vis c
    if weight_here < acc.2 then (c, weight_here) else acc) (pos, fMAX)).1

/-- src/mobiles/ai.rs: ai_heatmap_wsum: scan the guarded 3x3 neighbourhood
without the centre, keeping the first strict minimum among candidates whose
weighted sum is nonzero, starting from (None, f64::MAX). -/
def Mobile.ai_heatmap_wsum (W H : Nat) (m : Mobile) (pos : Point) (maps : Maps W H)
    (world : World W H) : Option Point :=
  let vis := locallyVisible W H pos world
  ((nbrCellsNoSelf W H pos).foldl (fun (acc : Option Point × ℚ) c =>
    let weight_here := wsumScore W H m maps vis c
    if weight_here < acc.2 ∧ weight_here ≠ 0 then (some c, weight_here) else acc)
    (none, fMAX)).1

/-- src/mobiles/ai.rs: ai_move_commit: move to a new position if possible;
returns false and leaves the registry unchanged when the destination is
occupied, otherwise removes the old entry and inserts the mobile at the new
position. -/
def Mobile.ai_move_commit (W H : Nat) (m : Mobile) (pos : Point) (mobs : Mobs)
    (world : World W H) (new_pos : Point) : Bool × Mobs :=
  if is_occupied W H new_pos mobs world then (false, mobs)
  else (true, mobsInsert (mobsRemove mobs pos) new_pos m)

/-- src/mobiles/mod.rs: reduce the weight of a desire by a certain amount, to a
minimum of 0 (BTreeMap::insert replaces the value of an existing key). -/
def Mobile.satisfy_desire (m : Mobile) (tag : MapTag) (by_ : ℚ) : Mobile :=
  match m.desires.find? (fun tw => tw.1 = tag) with
  | some tw =>
    let new := tw.2 - by_
    { m with desires := m.desires.map (fun tw' =>
        if tw'.1 = tag then (tag, if new < 0 then 0 else new) else tw') }
  | none => m

/-- src/mobiles/mod.rs: interact with a desired thing at a position reachable
from the current one: when the statics grid holds a static with a maptag there,
satisfy that desire by 1.0. -/
def Mobile.interact_at_point (W H : Nat) (m : Mobile) (_from : Point) (pos : Point)
    (world : World W H) : Mobile :=
  match world.statics.at_ pos with
  | some s =>
    match s.maptag with
    | some tag => m.satisfy_desire tag 1
    | none => m
  | none => m

/-- src/mobiles/mod.rs: do a turn: run the heatmap AI; staying put interacts in
place; an occupied destination which is itself a local minimum from its own
perspective converts the move into an interaction; otherwise the mobile is
removed from its old cell and inserted at the new one.  Returns the updated
mobile (desires may change) and the updated registry. -/
def Mobile.step (W H : Nat) (m : Mobile) (pos : Point) (mobs : Mobs)
    (maps : Maps W H) (world : World W H) : Mobile × Mobs :=
  let new_pos := Mobile.ai W H m pos maps world
  if new_pos = pos then
    (Mobile.interact_at_point W H m pos pos world, mobs)
  else if is_occupied W H new_pos mobs world then
    if Mobile.ai W H m new_pos maps world = new_pos then
      (Mobile.interact_at_point W H m pos new_pos world, mobs)
    else (m, mobs)
  else (m, mobsInsert (mobsRemove mobs pos) new_pos m)

/-- A cell is blocked for the flood fill when is_occupied holds with the empty
mob map, i.e. an impassable static sits there. -/
abbrev blk (W H : Nat) (world : World W H) (p : Point) : Prop :=
  is_occupied W H p [] world = true

/-- Reachability in at most n steps: a source itself, or an in-bounds unblocked
cell with a neighbour reachable in at most n - 1 steps.  Paths may start at a
blocked source but each later cell must be unblocked, matching the flood fill
(blocked cells are never enqueued, but sources are). -/
def reachN (W H : Nat) (S : List Point) (world : World W H) : ℕ → Point → Prop
  | 0, p => p ∈ S
  | n+1, p => reachN W H S world n p ∨
      (inb W H p ∧ ¬ blk W H world p ∧ ∃ q ∈ nbrCells W H p, reachN W H S world n q)

instance reachN_decidable (W H : Nat) (S : List Point) (world : World W H) :
    ∀ (n : ℕ) (p : Point), Decidable (reachN W H S world n p)
  | 0, _ => by unfold reachN; infer_instance
  | n+1, p => by
    unfold reachN
    letI : ∀ q, Decidable (reachN W H S world n q) := reachN_decidable W H S world n
    infer_instance

theorem fleeScan_minima_inb {W H : Nat} (approach fc fb : Grid W H ℚ) :
    ∀ e ∈ (fleeScan W H approach fc fb).minima, inb W H e := by
  suffices h : ∀ (l : List Point) (st : FleeScan W H), (∀ e ∈ st.minima, inb W H e) →
      (∀ p ∈ l, inb W H p) →
      ∀ e ∈ (l.foldl (fleeScanStep W H approach) st).minima, inb W H e by
    apply h
    · intro e he
      simp at he
    · intro p hp
      exact (mem_rowMajor p).1 hp
  intro l
  induction l with
  | nil =>
    intro st h1 _
    exact h1
  | cons p ps ih =>
    intro st h1 h2
    rw [List.foldl_cons]
    apply ih
    · intro e he
      have hp : inb W H p := h2 p (List.mem_cons_self _ _)
      unfold fleeScanStep at he
      split_ifs at he
      · rcases List.mem_append.1 he with h | h
        · exact h1 e h
        · rw [List.mem_singleton.1 h]
          exact hp
      · rw [List.mem_singleton.1 he]
        exact hp
      · exact h1 e he
      · exact h1 e he
    · intro q hq
      exact h2 q (List.mem_cons_of_mem _ hq)

/-- The initial approach grid of a rebuild: everything f64::MAX, then every
source set to 0. -/
def approachInit (W H : Nat) (m : Map W H) : Grid W H ℚ :=
  m.sources.foldl (fun g s => Grid.set g s 0) (Grid.new W H fMAX)

theorem rebuild_eq_phase1 {W H : Nat} (m : Map W H) (world : World W H) :
    Map.rebuild_from_sources W H m world =
      Map.recompute_flee W H
        ⟨m.sources, flood_fill W H (approachInit W H m) m.sources world,
          Grid.new W H fMAX, Grid.new W H fMAX⟩ world := by
  simp only [Map.rebuild_from_sources, resetFold_eq, resetAll_eq_new, approachInit]

theorem add_source_eq_phase1 {W H : Nat} (m : Map W H) (source : Point)
    (world : World W H) :
    Map.add_source W H m source world =
      Map.recompute_flee W H
        ⟨m.sources ++ [source], flood_fill W H (m.approach.set source 0) [source] world,
          m.flee_cowardly, m.flee_bravely⟩ world := by
  simp only [Map.add_source, Map.add_source_no_rebuild]

/-- Fuel-based executable form of recompute_flee: run both flee flood fills for
exactly n steps of the loop. -/
def recompute_flee_n (W H : Nat) (n : ℕ) (m : Map W H) (world : World W H) : Map W H :=
  let scan := fleeScan W H m.approach m.flee_cowardly m.flee_bravely
  { m with
    flee_cowardly := ((floodStep W H world)^[n] ⟨scan.flee_cowardly, scan.minima⟩).map
    flee_bravely := ((floodStep W H world)^[n] ⟨scan.flee_bravely, scan.minima⟩).map }

/-- Check that n loop iterations empty both flee flood-fill queues. -/
def recompute_flee_ok (W H : Nat) (n : ℕ) (m : Map W H) (world : World W H) : Bool :=
  let scan := fleeScan W H m.approach m.flee_cowardly m.flee_bravely
  decide (((floodStep W H world)^[n] (⟨scan.flee_cowardly, scan.minima⟩ : FFState W H)).queue = []) &&
  decide (((floodStep W H world)^[n] (⟨scan.flee_bravely, scan.minima⟩ : FFState W H)).queue = [])

theorem recompute_flee_eq_n (W H : Nat) (n : ℕ) (m : Map W H) (world : World W H)
    (h : recompute_flee_ok W H n m world = true) :
    Map.recompute_flee W H m world = recompute_flee_n W H n m world := by
  simp only [recompute_flee_ok, Bool.and_eq_true, decide_eq_true_eq] at h
  simp only [Map.recompute_flee, recompute_flee_n]
  rw [flood_fill_eq_iterate _ _ _ (fleeScan_minima_inb _ _ _) n h.1,
    flood_fill_eq_iterate _ _ _ (fleeScan_minima_inb _ _ _) n h.2]

/-- Fuel-based executable form of rebuild_from_sources. -/
def rebuild_n (W H : Nat) (n : ℕ) (m : Map W H) (world : World W H) : Map W H :=
  recompute_flee_n W H n
    ⟨m.sources, ((floodStep W H world)^[n] ⟨approachInit W H m, m.sources⟩).map,
      Grid.new W H fMAX, Grid.new W H fMAX⟩ world

/-- Check that the sources are in bounds and n iterations empty all three
flood-fill queues of a rebuild. -/
def rebuild_ok (W H : Nat) (n : ℕ) (m : Map W H) (world : World W H) : Bool :=
  decide (∀ e ∈ m.sources, inb W H e) &&
  decide (((floodStep W H world)^[n] (⟨approachInit W H m, m.sources⟩ : FFState W H)).queue = []) &&
  recompute_flee_ok W H n
    ⟨m.sources, ((floodStep W H world)^[n] ⟨approachInit W H m, m.sources⟩).map,
      Grid.new W H fMAX, Grid.new W H fMAX⟩ world

theorem rebuild_eq_n (W H : Nat) (n : ℕ) (m : Map W H) (world : World W H)
    (h : rebuild_ok W H n m world = true) :
    Map.rebuild_from_sources W H m world = rebuild_n W H n m world := by
  simp only [rebuild_ok, Bool.and_eq_true, decide_eq_true_eq] at h
  rw [rebuild_eq_phase1, flood_fill_eq_iterate _ _ _ h.1.1 n h.1.2, rebuild_n,
    recompute_flee_eq_n _ _ _ _ _ h.2]

/-- Fuel-based executable form of add_source. -/
def add_source_n (W H : Nat) (n : ℕ) (m : Map W H) (source : Point)
    (world : World W H) : Map W H :=
  recompute_flee_n W H n
    ⟨m.sources ++ [source],
      ((floodStep W H world)^[n] ⟨m.approach.set source 0, [source]⟩).map,
      m.flee_cowardly, m.flee_bravely⟩ world

/-- Check that the new source is in bounds and n iterations empty all three
flood-fill queues of an add_source. -/
def add_source_ok (W H : Nat) (n : ℕ) (m : Map W H) (source : Point)
    (world : World W H) : Bool :=
  decide (inb W H source) &&
  decide (((floodStep W H world)^[n]
    (⟨m.approach.set source 0, [source]⟩ : FFState W H)).queue = []) &&
  recompute_flee_ok W H n
    ⟨m.sources ++ [source],
      ((floodStep W H world)^[n] ⟨m.approach.set source 0, [source]⟩).map,
      m.flee_cowardly, m.flee_bravely⟩ world

theorem add_source_eq_n (W H : Nat) (n : ℕ) (m : Map W H) (source : Point)
    (world : World W H) (h : add_source_ok W H n m source world = true) :
    Map.add_source W H m source world = add_source_n W H n m source world := by
  simp only [add_source_ok, Bool.and_eq_true, decide_eq_true_eq] at h
  rw [add_source_eq_phase1, flood_fill_eq_iterate _ _ _ ?hok n h.1.2, add_source_n,
    recompute_flee_eq_n _ _ _ _ _ h.2]
  case hok =>
    intro e he
    rw [List.mem_singleton.1 he]
    exact h.1.1

theorem fMAX_pos : 0 < fMAX := by with_unfolding_all decide

theorem two_lt_fMAX : (2 : ℚ) < fMAX := by with_unfolding_all decide

theorem fMAX_ne_zero : fMAX ≠ 0 := by with_unfolding_all decide

theorem natCast_lt_fMAX {n : ℕ} (h : n < 2^1024 - 2^971) : (n : ℚ) < fMAX := by
  rw [fMAX]
  exact_mod_cast h

theorem not_blk_iff {W H : Nat} (world : World W H) (p : Point) :
    (! is_occupied W H p [] world) = true ↔ ¬ blk W H world p := by
  rw [Bool.not_eq_true']
  constructor
  · intro h hc
    have hc' : is_occupied W H p [] world = true := hc
    rw [h] at hc'
    exact Bool.false_ne_true hc'
  · intro h
    cases hoc : is_occupied W H p [] world
    · rfl
    · exact absurd hoc h

/-- The invariant carried through the approach flood fill of a rebuild: every
in-bounds value is the sentinel or a realised path length; sources stay at 0;
all values are at most the sentinel; queue entries are in bounds and unblocked
unless they are sources with value 0; and every relaxation violation is covered
by the queue. -/
def C1Inv (W H : Nat) (S : List Point) (world : World W H) (s : FFState W H) : Prop :=
  (∀ p : Point, inb W H p →
    s.map.at_ p = fMAX ∨ ∃ n : ℕ, reachN W H S world n p ∧ s.map.at_ p = (n : ℚ)) ∧
  (∀ t ∈ S, s.map.at_ t = 0) ∧
  (∀ p : Point, inb W H p → s.map.at_ p ≤ fMAX) ∧
  (∀ e ∈ s.queue, inb W H e ∧ (¬ blk W H world e ∨ s.map.at_ e = 0)) ∧
  (∀ p q : Point, inb W H p → ¬ blk W H world p → q ∈ nbrCells W H p →
    s.map.at_ q + 1 < s.map.at_ p →
    p ∈ s.queue ∨ (q ∈ s.queue ∧ s.map.at_ q = 0 ∧ s.map.at_ p = fMAX))

theorem reachN_mono {W H : Nat} {S : List Point} {world : World W H} {n m : ℕ}
    (hnm : n ≤ m) {p : Point} (h : reachN W H S world n p) : reachN W H S world m p := by
  induction m with
  | zero =>
    rw [Nat.le_zero.1 hnm] at h
    exact h
  | succ m ih =>
    rcases Nat.lt_or_ge n (m + 1) with hlt | hge
    · exact Or.inl (ih (by omega))
    · rw [show n = m + 1 by omega] at h
      exact h

theorem reachN_inb {W H : Nat} {S : List Point} {world : World W H}
    (hS : ∀ s ∈ S, inb W H s) {n : ℕ} {p : Point} (h : reachN W H S world n p) :
    inb W H p := by
  induction n with
  | zero => exact hS p h
  | succ n ih =>
    rcases h with h | ⟨hb, _, _⟩
    · exact ih h
    · exact hb

theorem C1Inv_preserved {W H : Nat} {S : List Point} {world : World W H}
    (s : FFState W H) (hinv : C1Inv W H S world s) :
    C1Inv W H S world (floodStep W H world s) := by
  obtain ⟨hB, hC, hUB, hQ, hJ⟩ := hinv
  cases hqe : s.queue with
  | nil =>
    rw [floodStep_empty _ _ hqe]
    exact ⟨hB, hC, hUB, hQ, hJ⟩
  | cons pos rest =>
    have hposQ := hQ pos (by rw [hqe]; exact List.mem_cons_self _ _)
    have hpos : inb W H pos := hposQ.1
    have hrestQ : ∀ e ∈ rest, inb W H e ∧ (¬ blk W H world e ∨ s.map.at_ e = 0) :=
      fun e he => hQ e (by rw [hqe]; exact List.mem_cons_of_mem _ he)
    have hnn : ∀ r : Point, inb W H r → 0 ≤ s.map.at_ r := by
      intro r hr
      rcases hB r hr with h | ⟨n, _, h⟩
      · rw [h]; exact fMAX_pos.le
      · rw [h]; positivity
    have hlm_le_init : foldMin s.map.at_ (s.map.at_ pos) (nbrCells W H pos) ≤ s.map.at_ pos :=
      foldMin_le_init _ _ _
    have hlm_le : ∀ q ∈ nbrCells W H pos,
        foldMin s.map.at_ (s.map.at_ pos) (nbrCells W H pos) ≤ s.map.at_ q :=
      fun q hq => foldMin_le_of_mem _ _ _ q hq
    have hlm_nn : 0 ≤ foldMin s.map.at_ (s.map.at_ pos) (nbrCells W H pos) := by
      rcases foldMin_cases s.map.at_ (s.map.at_ pos) (nbrCells W H pos) with h | ⟨c, hcm, h⟩
      · rw [h]; exact hnn pos hpos
      · rw [h]; exact hnn c (nbrCells_inb hpos hcm)
    by_cases hc : foldMin s.map.at_ (s.map.at_ pos) (nbrCells W H pos) + 1 < s.map.at_ pos
    · -- commit case
      have hval_ne : s.map.at_ pos ≠ 0 := by
        intro h0
        linarith
      have hnblk : ¬ blk W H world pos := by
        rcases hposQ.2 with h | h
        · exact h
        · exact absurd h hval_ne
      rw [floodStep_commit world s pos rest hqe hc]
      have hat_pos : (s.map.set pos (foldMin s.map.at_ (s.map.at_ pos) (nbrCells W H pos) + 1)).at_ pos =
          foldMin s.map.at_ (s.map.at_ pos) (nbrCells W H pos) + 1 :=
        Grid.at_set_self _ _ _ hpos.1 hpos.2
      have hat_ne : ∀ r : Point, r ≠ pos →
          (s.map.set pos (foldMin s.map.at_ (s.map.at_ pos) (nbrCells W H pos) + 1)).at_ r =
          s.map.at_ r :=
        fun r hr => Grid.at_set_ne _ _ _ _ hr
      have hmemF : ∀ r : Point, r ∈ (nbrCells W H pos).filter (fun p =>
          decide (foldMin s.map.at_ (s.map.at_ pos) (nbrCells W H pos) + 1 + 1 <
            (s.map.set pos (foldMin s.map.at_ (s.map.at_ pos) (nbrCells W H pos) + 1)).at_ p) &&
          ! is_occupied W H p [] world) ↔
          (r ∈ nbrCells W H pos ∧
            foldMin s.map.at_ (s.map.at_ pos) (nbrCells W H pos) + 1 + 1 <
              (s.map.set pos (foldMin s.map.at_ (s.map.at_ pos) (nbrCells W H pos) + 1)).at_ r ∧
            ¬ blk W H world r) := by
        intro r
        simp only [List.mem_filter, Bool.and_eq_true, decide_eq_true_eq, not_blk_iff]
      -- the committed value is a realised path length
      obtain ⟨c, hcm, hceq⟩ : ∃ c ∈ nbrCells W H pos,
          s.map.at_ c = foldMin s.map.at_ (s.map.at_ pos) (nbrCells W H pos) := by
        rcases foldMin_cases s.map.at_ (s.map.at_ pos) (nbrCells W H pos) with h | ⟨c, hcm, h⟩
        · exfalso
          rw [h] at hc
          linarith
        · exact ⟨c, hcm, h.symm⟩
      have hcinb : inb W H c := nbrCells_inb hpos hcm
      obtain ⟨n, hreach, hn⟩ : ∃ n : ℕ, reachN W H S world n c ∧ s.map.at_ c = (n : ℚ) := by
        rcases hB c hcinb with hcf | h
        · exfalso
          have h1 := hUB pos hpos
          rw [hceq] at hcf
          rw [hcf] at hc
          linarith
        · exact h
      refine ⟨?_, ?_, ?_, ?_, ?_⟩
      · -- B
        intro p hp
        by_cases hpp : p = pos
        · subst hpp
          right
          refine ⟨n + 1, Or.inr ⟨hp, hnblk, c, hcm, hreach⟩, ?_⟩
          rw [hat_pos, ← hceq, hn]
          push_cast
          ring
        · rw [hat_ne p hpp]
          exact hB p hp
      · -- C
        intro t ht
        have htpos : t ≠ pos := by
          intro hc'
          subst hc'
          exact hval_ne (hC t ht)
        rw [hat_ne t htpos]
        exact hC t ht
      · -- UB
        intro p hp
        by_cases hpp : p = pos
        · rw [hpp, hat_pos]
          calc foldMin s.map.at_ (s.map.at_ pos) (nbrCells W H pos) + 1 ≤ s.map.at_ pos := hc.le
          _ ≤ fMAX := hUB pos hpos
        · rw [hat_ne p hpp]
          exact hUB p hp
      · -- Q
        intro e he
        rcases List.mem_append.1 he with h | h
        · obtain ⟨he1, he2⟩ := hrestQ e h
          refine ⟨he1, ?_⟩
          rcases he2 with h2 | h2
          · exact Or.inl h2
          · by_cases hep : e = pos
            · subst hep
              exact absurd h2 hval_ne
            · rw [hat_ne e hep]
              exact Or.inr h2
        · obtain ⟨hmem, _, hnb⟩ := (hmemF e).1 h
          exact ⟨nbrCells_inb hpos hmem, Or.inl hnb⟩
      · -- J
        intro p q hpinb hpnblk hqmem hviol
        by_cases hpp : p = pos
        · exfalso
          rw [hpp] at hviol hqmem
          rw [hat_pos] at hviol
          by_cases hqq : q = pos
          · rw [hqq, hat_pos] at hviol
            linarith
          · rw [hat_ne q hqq] at hviol
            have := hlm_le q hqmem
            linarith
        · rw [hat_ne p hpp] at hviol
          by_cases hqq : q = pos
          · rw [hqq] at hqmem hviol
            rw [hat_pos] at hviol
            left
            rw [List.mem_append]
            right
            rw [hmemF p]
            refine ⟨(nbrCells_symm hpinb hpos).1 hqmem, ?_, hpnblk⟩
            rw [hat_ne p hpp]
            linarith
          · rw [hat_ne q hqq] at hviol
            rcases hJ p q hpinb hpnblk hqmem hviol with h | ⟨h1, h2, h3⟩
            · rw [hqe] at h
              rcases List.mem_cons.1 h with h' | h'
              · exact absurd h' hpp
              · exact Or.inl (List.mem_append.2 (Or.inl h'))
            · rw [hqe] at h1
              rcases List.mem_cons.1 h1 with h' | h'
              · exact absurd h' hqq
              · exact Or.inr ⟨List.mem_append.2 (Or.inl h'), by rw [hat_ne q hqq]; exact h2,
                  by rw [hat_ne p hpp]; exact h3⟩
    · -- no commit
      by_cases h0 : s.map.at_ pos = 0
      · -- val = 0: push without relaxing
        rw [floodStep_zero world s pos rest hqe hc h0]
        have hlm0 : foldMin s.map.at_ (s.map.at_ pos) (nbrCells W H pos) = 0 := by
          have h1 : foldMin s.map.at_ (s.map.at_ pos) (nbrCells W H pos) ≤ 0 := by
            rw [← h0]
            exact hlm_le_init
          linarith
        have hmemF : ∀ r : Point, r ∈ (nbrCells W H pos).filter (fun p =>
            decide (foldMin s.map.at_ (s.map.at_ pos) (nbrCells W H pos) + 1 + 1 < s.map.at_ p) &&
            ! is_occupied W H p [] world) ↔
            (r ∈ nbrCells W H pos ∧
              foldMin s.map.at_ (s.map.at_ pos) (nbrCells W H pos) + 1 + 1 < s.map.at_ r ∧
              ¬ blk W H world r) := by
          intro r
          simp only [List.mem_filter, Bool.and_eq_true, decide_eq_true_eq, not_blk_iff]
        refine ⟨hB, hC, hUB, ?_, ?_⟩
        · intro e he
          rcases List.mem_append.1 he with h | h
          · exact hrestQ e h
          · obtain ⟨hmem, _, hnb⟩ := (hmemF e).1 h
            exact ⟨nbrCells_inb hpos hmem, Or.inl hnb⟩
        · intro p q hpinb hpnblk hqmem hviol
          by_cases hpp : p = pos
          · exfalso
            rw [hpp] at hviol
            rw [h0] at hviol
            have hq0 : 0 ≤ s.map.at_ q := hnn q (nbrCells_inb hpinb (hpp ▸ hqmem))
            linarith
          · by_cases hqq : q = pos
            · rw [hqq] at hqmem hviol
              rcases hJ p pos hpinb hpnblk hqmem hviol with h | ⟨h1, h2, h3⟩
              · rw [hqe] at h
                rcases List.mem_cons.1 h with h' | h'
                · exact absurd h' hpp
                · exact Or.inl (List.mem_append.2 (Or.inl h'))
              · left
                rw [List.mem_append]
                right
                rw [hmemF p]
                refine ⟨(nbrCells_symm hpinb hpos).1 hqmem, ?_, hpnblk⟩
                rw [h3, hlm0]
                have := two_lt_fMAX
                linarith
            · rcases hJ p q hpinb hpnblk hqmem hviol with h | ⟨h1, h2, h3⟩
              · rw [hqe] at h
                rcases List.mem_cons.1 h with h' | h'
                · exact absurd h' hpp
                · exact Or.inl (List.mem_append.2 (Or.inl h'))
              · rw [hqe] at h1
                rcases List.mem_cons.1 h1 with h' | h'
                · exact absurd h' hqq
                · exact Or.inr ⟨List.mem_append.2 (Or.inl h'), h2, h3⟩
      · -- nothing happens
        rw [floodStep_nothing world s pos rest hqe hc h0]
        refine ⟨hB, hC, hUB, fun e he => hrestQ e he, ?_⟩
        intro p q hpinb hpnblk hqmem hviol
        by_cases hpp : p = pos
        · exfalso
          rw [hpp] at hviol hqmem
          have h1 := hlm_le q hqmem
          have h2 : s.map.at_ pos ≤ foldMin s.map.at_ (s.map.at_ pos) (nbrCells W H pos) + 1 :=
            le_of_not_lt hc
          linarith
        · by_cases hqq : q = pos
          · rw [hqq] at hqmem hviol
            rcases hJ p pos hpinb hpnblk hqmem hviol with h | ⟨h1, h2, h3⟩
            · rw [hqe] at h
              rcases List.mem_cons.1 h with h' | h'
              · exact absurd h' hpp
              · exact Or.inl h'
            · exact absurd h2 h0
          · rcases hJ p q hpinb hpnblk hqmem hviol with h | ⟨h1, h2, h3⟩
            · rw [hqe] at h
              rcases List.mem_cons.1 h with h' | h'
              · exact absurd h' hpp
              · exact Or.inl h'
            · rw [hqe] at h1
              rcases List.mem_cons.1 h1 with h' | h'
              · exact absurd h' hqq
              · exact Or.inr ⟨h', h2, h3⟩

theorem C1Inv_init {W H : Nat} (m : Map W H) (world : World W H)
    (hS : ∀ s ∈ m.sources, inb W H s) :
    C1Inv W H m.sources world ⟨approachInit W H m, m.sources⟩ := by
  have hat : ∀ p : Point, inb W H p →
      (approachInit W H m).at_ p = if p ∈ m.sources then 0 else fMAX := by
    intro p hp
    by_cases hmem : p ∈ m.sources
    · rw [if_pos hmem, approachInit]
      exact at_foldl_set_mem _ _ _ _ hp hmem
    · rw [if_neg hmem, approachInit, at_foldl_set_not_mem _ _ _ _ hmem,
        Grid.at_new _ _ hp.1 hp.2]
  refine ⟨?_, ?_, ?_, ?_, ?_⟩
  · intro p hp
    rw [hat p hp]
    by_cases hmem : p ∈ m.sources
    · rw [if_pos hmem]
      right
      exact ⟨0, hmem, by norm_num⟩
    · rw [if_neg hmem]
      left
      rfl
  · intro t ht
    rw [hat t (hS t ht), if_pos ht]
  · intro p hp
    rw [hat p hp]
    split_ifs
    · exact fMAX_pos.le
    · exact le_refl _
  · intro e he
    exact ⟨hS e he, Or.inr (by rw [hat e (hS e he), if_pos he])⟩
  · intro p q hpinb hpnblk hqmem hviol
    have hqinb := nbrCells_inb hpinb hqmem
    rw [hat p hpinb, hat q hqinb] at hviol
    by_cases hqs : q ∈ m.sources
    · rw [if_pos hqs] at hviol
      by_cases hps : p ∈ m.sources
      · rw [if_pos hps] at hviol
        linarith
      · rw [if_neg hps] at hviol
        right
        exact ⟨hqs, by rw [hat q hqinb, if_pos hqs], by rw [hat p hpinb, if_neg hps]⟩
    · rw [if_neg hqs] at hviol
      exfalso
      split_ifs at hviol with hps
      · have := fMAX_pos
        linarith
      · linarith

theorem flood_final_le {W H : Nat} {S : List Point} {world : World W H}
    {s : FFState W H} (hq : s.queue = []) (hinv : C1Inv W H S world s) :
    ∀ (n : ℕ) (p : Point), reachN W H S world n p → s.map.at_ p ≤ (n : ℚ) := by
  obtain ⟨hB, hC, hUB, hQ, hJ⟩ := hinv
  have hfix : ∀ p q : Point, inb W H p → ¬ blk W H world p → q ∈ nbrCells W H p →
      s.map.at_ p ≤ s.map.at_ q + 1 := by
    intro p q h1 h2 h3
    by_contra hcon
    rcases hJ p q h1 h2 h3 (lt_of_not_le hcon) with h | ⟨h, _, _⟩
    · rw [hq] at h
      simp at h
    · rw [hq] at h
      simp at h
  intro n
  induction n with
  | zero =>
    intro p hp
    rw [hC p hp]
    norm_num
  | succ n ih =>
    intro p hp
    rcases hp with h | ⟨hpinb, hpnblk, q, hqmem, hq'⟩
    · calc s.map.at_ p ≤ (n : ℚ) := ih p h
      _ ≤ ((n + 1 : ℕ) : ℚ) := by push_cast; linarith
    · calc s.map.at_ p ≤ s.map.at_ q + 1 := hfix p q hpinb hpnblk hqmem
      _ ≤ (n : ℚ) + 1 := by linarith [ih q hq']
      _ = ((n + 1 : ℕ) : ℚ) := by push_cast; ring

/-- The finset of all in-bounds points. -/
def allPF (W H : Nat) : Finset Point :=
  (Finset.range W ×ˢ Finset.range H).image (fun ab => Point.mk ab.1 ab.2)

theorem mem_allPF {W H : Nat} (p : Point) : p ∈ allPF W H ↔ inb W H p := by
  simp only [allPF, Finset.mem_image, Finset.mem_product, Finset.mem_range]
  constructor
  · intro ⟨ab, ⟨ha, hb⟩, heq⟩
    rw [← heq]
    exact ⟨ha, hb⟩
  · intro ⟨hx, hy⟩
    exact ⟨(p.x, p.y), ⟨hx, hy⟩, rfl⟩

theorem allPF_card_le (W H : Nat) : (allPF W H).card ≤ W * H := by
  calc (allPF W H).card ≤ (Finset.range W ×ˢ Finset.range H).card := Finset.card_image_le
  _ = W * H := by rw [Finset.card_product, Finset.card_range, Finset.card_range]

/-- The finset of points reachable within n steps. -/
def Rset (W H : Nat) (S : List Point) (world : World W H) (n : ℕ) : Finset Point :=
  (allPF W H).filter (fun p => reachN W H S world n p)

theorem mem_Rset {W H : Nat} {S : List Point} {world : World W H}
    (hS : ∀ s ∈ S, inb W H s) {n : ℕ} {p : Point} :
    p ∈ Rset W H S world n ↔ reachN W H S world n p := by
  rw [Rset, Finset.mem_filter]
  constructor
  · exact fun h => h.2
  · intro h
    exact ⟨(mem_allPF p).2 (reachN_inb hS h), h⟩

theorem Rset_congr_step {W H : Nat} {S : List Point} {world : World W H}
    (_hS : ∀ s ∈ S, inb W H s) {a : ℕ}
    (h : ∀ p : Point, reachN W H S world a p ↔ reachN W H S world (a + 1) p) :
    ∀ p : Point, reachN W H S world (a + 1) p ↔ reachN W H S world (a + 2) p := by
  intro p
  constructor
  · exact reachN_mono (Nat.le_succ _)
  · intro hr
    rcases hr with hr | ⟨h1, h2, q, hq, hr⟩
    · exact hr
    · exact Or.inr ⟨h1, h2, q, hq, (h q).2 hr⟩

theorem reach_saturate {W H : Nat} {S : List Point} {world : World W H}
    (hS : ∀ s ∈ S, inb W H s) {n : ℕ} {p : Point} (h : reachN W H S world n p) :
    reachN W H S world (W * H) p := by
  have hstab : ∃ k ≤ (allPF W H).card, ∀ q : Point,
      reachN W H S world k q ↔ reachN W H S world (k + 1) q := by
    by_contra hcon
    push_neg at hcon
    have hne : ∀ k ≤ (allPF W H).card, Rset W H S world k ≠ Rset W H S world (k + 1) := by
      intro k hk hc
      obtain ⟨q, hq⟩ := hcon k hk
      have hiff : reachN W H S world k q ↔ reachN W H S world (k + 1) q := by
        constructor
        · intro hr
          exact (mem_Rset hS).1 (hc ▸ (mem_Rset hS).2 hr)
        · intro hr
          exact (mem_Rset hS).1 (hc.symm ▸ (mem_Rset hS).2 hr)
      rcases hq with ⟨h1, h2⟩ | ⟨h1, h2⟩
      · exact h2 (hiff.1 h1)
      · exact h1 (hiff.2 h2)
    have hsub : ∀ k : ℕ, Rset W H S world k ⊆ Rset W H S world (k + 1) := by
      intro k q hq
      rw [Rset, Finset.mem_filter] at hq ⊢
      exact ⟨hq.1, Or.inl hq.2⟩
    have hgrow : ∀ j : ℕ, j ≤ (allPF W H).card + 1 → j ≤ (Rset W H S world j).card := by
      intro j
      induction j with
      | zero => intro _; exact Nat.zero_le _
      | succ j ih =>
        intro hj
        have hlt : (Rset W H S world j).card < (Rset W H S world (j + 1)).card :=
          Finset.card_lt_card (Finset.ssubset_iff_subset_ne.2 ⟨hsub j, hne j (by omega)⟩)
        have := ih (by omega)
        omega
    have h1 := hgrow ((allPF W H).card + 1) (le_refl _)
    have h2 : (Rset W H S world ((allPF W H).card + 1)).card ≤ (allPF W H).card :=
      Finset.card_le_card (Finset.filter_subset _ _)
    omega
  obtain ⟨k, hk_le, hk⟩ := hstab
  have hstep : ∀ j : ℕ, ∀ q : Point,
      reachN W H S world (k + j) q ↔ reachN W H S world (k + j + 1) q := by
    intro j
    induction j with
    | zero => exact hk
    | succ j ih =>
      have := Rset_congr_step hS ih
      intro q
      exact this q
  have hpt : ∀ j : ℕ, ∀ q : Point,
      reachN W H S world (k + j) q → reachN W H S world k q := by
    intro j
    induction j with
    | zero => intro q h; exact h
    | succ j ih =>
      intro q h
      apply ih
      apply (hstep j q).2
      have heq : k + (j + 1) = k + j + 1 := by omega
      rw [heq] at h
      exact h
  have hkp : reachN W H S world k p := hpt n p (reachN_mono (by omega) h)
  exact reachN_mono (le_trans hk_le (allPF_card_le W H)) hkp

theorem rebuild_approach_eq {W H : Nat} (m : Map W H) (world : World W H) :
    (Map.rebuild_from_sources W H m world).approach =
      flood_fill W H (approachInit W H m) m.sources world := by
  rw [rebuild_eq_phase1]
  rfl

/-- Full correctness of the approach flood fill: sources get 0, reachable cells
get the minimal number of 8-directional steps from a source along unblocked
paths, unreachable cells keep fMAX. -/
theorem flood_approach_correct {W H : Nat} (m : Map W H) (world : World W H)
    (hS : ∀ s ∈ m.sources, inb W H s) (hWH : W * H < 2 ^ 1024 - 2 ^ 971)
    (p : Point) (hp : inb W H p) :
    (p ∈ m.sources → (flood_fill W H (approachInit W H m) m.sources world).at_ p = 0) ∧
    ((∃ n, reachN W H m.sources world n p) →
      ∃ n : ℕ, reachN W H m.sources world n p ∧
        (flood_fill W H (approachInit W H m) m.sources world).at_ p = (n : ℚ) ∧
        ∀ k : ℕ, reachN W H m.sources world k p → n ≤ k) ∧
    ((¬ ∃ n, reachN W H m.sources world n p) →
      (flood_fill W H (approachInit W H m) m.sources world).at_ p = fMAX) := by
  obtain ⟨s, hqe, hinv, heq⟩ := flood_fill_spec (approachInit W H m) m.sources world hS
    (C1Inv W H m.sources world) (C1Inv_init m world hS) (fun s hs => C1Inv_preserved s hs)
  have hle := flood_final_le hqe hinv
  obtain ⟨hB, hC, _hUB, _hQ, _hJ⟩ := hinv
  rw [heq]
  refine ⟨fun hps => hC p hps, ?_, ?_⟩
  · rintro ⟨n0, hn0⟩
    rcases hB p hp with hfx | ⟨n, hrn, hval⟩
    · exfalso
      have hsat := reach_saturate hS hn0
      have h1 := hle (W * H) p hsat
      rw [hfx] at h1
      exact absurd (lt_of_le_of_lt h1 (natCast_lt_fMAX hWH)) (lt_irrefl _)
    · refine ⟨n, hrn, hval, ?_⟩
      intro k hk
      have hk' := hle k p hk
      rw [hval] at hk'
      exact_mod_cast hk'
  · intro hnr
    rcases hB p hp with hfx | ⟨n, hrn, _⟩
    · exact hfx
    · exact absurd ⟨n, hrn⟩ hnr

/-- A one-row test world with no statics and no sources. -/
def wtest (W : Nat) : World W 1 := ⟨Grid.new W 1 none, []⟩

/-- A 2-wide test map with a single source at the origin. -/
def m2test : Map 2 1 := { Map.new 2 1 with sources := [⟨0, 0⟩] }

/-- A 3-wide test map with a single source at the origin. -/
def m3test : Map 3 1 := { Map.new 3 1 with sources := [⟨0, 0⟩] }

/-- A 4-wide test map with a single source at the origin. -/
def m4test : Map 4 1 := { Map.new 4 1 with sources := [⟨0, 0⟩] }

/-- A 4-wide test map with sources at both ends. -/
def m4test2 : Map 4 1 := { Map.new 4 1 with sources := [⟨0, 0⟩, ⟨3, 0⟩] }

/-- A 2-wide test map with two sources A and B. -/
def mABtest : Map 2 1 := { Map.new 2 1 with sources := [⟨0, 0⟩, ⟨1, 0⟩] }

/-- Claim C1: after rebuild_from_sources, on every in-bounds cell the approach
field realises shortest 8-directional distance: every source cell has value 0,
every reachable cell's value is the minimum number of 8-directional unit steps
from the source set along paths avoiding blocked cells, and unreachable cells
keep the sentinel fMAX.  (The original claim extended this to the field left by
add_source, which C1_counterexample refutes.) -/
theorem C1_rebuild_approach_min_steps {W H : Nat} (m : Map W H) (world : World W H)
    (hS : ∀ s ∈ m.sources, inb W H s) (hWH : W * H < 2 ^ 1024 - 2 ^ 971)
    (p : Point) (hp : inb W H p) :
    (p ∈ m.sources → (Map.rebuild_from_sources W H m world).approach.at_ p = 0) ∧
    ((∃ n, reachN W H m.sources world n p) →
      ∃ n : ℕ, reachN W H m.sources world n p ∧
        (Map.rebuild_from_sources W H m world).approach.at_ p = (n : ℚ) ∧
        ∀ k : ℕ, reachN W H m.sources world k p → n ≤ k) ∧
    ((¬ ∃ n, reachN W H m.sources world n p) →
      (Map.rebuild_from_sources W H m world).approach.at_ p = fMAX) := by
  rw [rebuild_approach_eq]
  exact flood_approach_correct m world hS hWH p hp

/-- C1 at a concrete input: the 2-wide single-source map, read at cell (1,0). -/
theorem C1_witness :
    ((⟨1, 0⟩ : Point) ∈ m2test.sources →
      (Map.rebuild_from_sources 2 1 m2test (wtest 2)).approach.at_ ⟨1, 0⟩ = 0) ∧
    ((∃ n, reachN 2 1 m2test.sources (wtest 2) n ⟨1, 0⟩) →
      ∃ n : ℕ, reachN 2 1 m2test.sources (wtest 2) n ⟨1, 0⟩ ∧
        (Map.rebuild_from_sources 2 1 m2test (wtest 2)).approach.at_ ⟨1, 0⟩ = (n : ℚ) ∧
        ∀ k : ℕ, reachN 2 1 m2test.sources (wtest 2) k ⟨1, 0⟩ → n ≤ k) ∧
    ((¬ ∃ n, reachN 2 1 m2test.sources (wtest 2) n ⟨1, 0⟩) →
      (Map.rebuild_from_sources 2 1 m2test (wtest 2)).approach.at_ ⟨1, 0⟩ = fMAX) :=
  C1_rebuild_approach_min_steps m2test (wtest 2) (by decide) (by norm_num) ⟨1, 0⟩ (by decide)

/-- The original C1 fails for add_source: on the 4x1 line with a source at
(0,0), adding a source at (3,0) leaves cell (2,0) at stale value 2 although it
is one step from the nearest source (reachable in 1 step, not 0). -/
theorem C1_counterexample :
    (Map.add_source 4 1 (Map.rebuild_from_sources 4 1 m4test (wtest 4)) ⟨3, 0⟩
      (wtest 4)).approach.at_ ⟨2, 0⟩ = 2 ∧
    reachN 4 1 (Map.add_source 4 1 (Map.rebuild_from_sources 4 1 m4test (wtest 4)) ⟨3, 0⟩
      (wtest 4)).sources (wtest 4) 1 ⟨2, 0⟩ ∧
    ¬ reachN 4 1 (Map.add_source 4 1 (Map.rebuild_from_sources 4 1 m4test (wtest 4)) ⟨3, 0⟩
      (wtest 4)).sources (wtest 4) 0 ⟨2, 0⟩ ∧
    (2 : ℚ) ≠ ((1 : ℕ) : ℚ) := by
  have h1 : Map.rebuild_from_sources 4 1 m4test (wtest 4) =
      rebuild_n 4 1 20 m4test (wtest 4) :=
    rebuild_eq_n 4 1 20 m4test (wtest 4) (by with_unfolding_all decide)
  rw [h1]
  have h2 : Map.add_source 4 1 (rebuild_n 4 1 20 m4test (wtest 4)) ⟨3, 0⟩ (wtest 4) =
      add_source_n 4 1 20 (rebuild_n 4 1 20 m4test (wtest 4)) ⟨3, 0⟩ (wtest 4) :=
    add_source_eq_n 4 1 20 _ _ (wtest 4) (by with_unfolding_all decide)
  rw [h2]
  refine ⟨by with_unfolding_all decide, by decide, by decide, by norm_num⟩

/-- Claim C2 (corrected to the approach field): after rebuild_from_sources,
every in-bounds cell with a finite approach value that is not a source has an
8-neighbour whose approach value is exactly one less.  (The original claim
extended this to the flee fields, which C2_counterexample refutes.) -/
theorem C2_approach_monotone_neighbor {W H : Nat} (m : Map W H) (world : World W H)
    (hS : ∀ s ∈ m.sources, inb W H s) (hWH : W * H < 2 ^ 1024 - 2 ^ 971)
    (p : Point) (hp : inb W H p)
    (hfin : (Map.rebuild_from_sources W H m world).approach.at_ p ≠ fMAX)
    (hns : p ∉ m.sources) :
    ∃ q ∈ nbrCells W H p,
      (Map.rebuild_from_sources W H m world).approach.at_ q =
        (Map.rebuild_from_sources W H m world).approach.at_ p - 1 := by
  rw [rebuild_approach_eq] at hfin ⊢
  obtain ⟨_h0, hreach, hunreach⟩ := flood_approach_correct m world hS hWH p hp
  by_cases hex : ∃ n, reachN W H m.sources world n p
  swap
  · exact absurd (hunreach hex) hfin
  obtain ⟨n, hrn, hval, hmin⟩ := hreach hex
  cases n with
  | zero => exact absurd (show p ∈ m.sources from hrn) hns
  | succ nm =>
    have hnm : ¬ reachN W H m.sources world nm p := by
      intro hc
      have := hmin nm hc
      omega
    have hrn' : reachN W H m.sources world nm p ∨
        (inb W H p ∧ ¬ blk W H world p ∧
          ∃ q ∈ nbrCells W H p, reachN W H m.sources world nm q) := hrn
    rcases hrn' with hc | ⟨hinb, hnblk, q, hqmem, hrq⟩
    · exact absurd hc hnm
    refine ⟨q, hqmem, ?_⟩
    have hqinb : inb W H q := nbrCells_inb hp hqmem
    obtain ⟨_, hqreach, _⟩ := flood_approach_correct m world hS hWH q hqinb
    obtain ⟨k, hrk, hvalq, hminq⟩ := hqreach ⟨nm, hrq⟩
    have hk_le : k ≤ nm := hminq nm hrq
    have hk_ge : nm ≤ k := by
      by_contra hlt
      push_neg at hlt
      have hstep : reachN W H m.sources world (k + 1) p :=
        Or.inr ⟨hinb, hnblk, q, hqmem, hrk⟩
      have := hmin (k + 1) hstep
      omega
    have hkeq : k = nm := le_antisymm hk_le hk_ge
    rw [hvalq, hval, hkeq]
    push_cast
    ring

/-- C2 at a concrete input: the rebuilt 3x1 single-source map, at cell (1,0). -/
theorem C2_witness :
    ∃ q ∈ nbrCells 3 1 ⟨1, 0⟩,
      (Map.rebuild_from_sources 3 1 m3test (wtest 3)).approach.at_ q =
        (Map.rebuild_from_sources 3 1 m3test (wtest 3)).approach.at_ ⟨1, 0⟩ - 1 :=
  C2_approach_monotone_neighbor m3test (wtest 3) (by decide) (by norm_num) ⟨1, 0⟩
    (by decide)
    (by rw [rebuild_eq_n 3 1 20 m3test (wtest 3) (by with_unfolding_all decide)]
        with_unfolding_all decide)
    (by decide)

/-- The original C2 fails for the flee fields: on the rebuilt 3x1 single-source
map, flee_cowardly is [0, -11/10, -11/5]; cell (1,0) has a finite value and is
not one of the propagator's seeds (it is not a global minimum, (2,0) is lower),
yet no neighbour holds value -11/10 - 1. -/
theorem C2_counterexample :
    (Map.rebuild_from_sources 3 1 m3test (wtest 3)).flee_cowardly.at_ ⟨1, 0⟩ = -11/10 ∧
    fMAX ≠ (-11/10 : ℚ) ∧
    (Map.rebuild_from_sources 3 1 m3test (wtest 3)).flee_cowardly.at_ ⟨2, 0⟩ = -11/5 ∧
    (-11/5 : ℚ) < -11/10 ∧
    (∀ q ∈ nbrCells 3 1 ⟨1, 0⟩,
      (Map.rebuild_from_sources 3 1 m3test (wtest 3)).flee_cowardly.at_ q ≠
        (Map.rebuild_from_sources 3 1 m3test (wtest 3)).flee_cowardly.at_ ⟨1, 0⟩ - 1) := by
  rw [rebuild_eq_n 3 1 20 m3test (wtest 3) (by with_unfolding_all decide)]
  refine ⟨by with_unfolding_all decide, by with_unfolding_all decide,
    by with_unfolding_all decide, by with_unfolding_all decide,
    by with_unfolding_all decide⟩

/-- The candidate fold of ai_heatmap_wsum, abstracted over the score function:
keep the first candidate whose score is a strict improvement and nonzero. -/
def wsumFold (f : Point → ℚ) (l : List Point) (acc : Option Point × ℚ) :
    Option Point × ℚ :=
  l.foldl (fun acc c => if f c < acc.2 ∧ f c ≠ 0 then (some c, f c) else acc) acc

theorem wsumFold_spec (f : Point → ℚ) (l : List Point) :
    ∀ acc : Option Point × ℚ,
      (wsumFold f l acc = acc ∧ ∀ d ∈ l, ¬(f d < acc.2 ∧ f d ≠ 0)) ∨
      (∃ c ∈ l, wsumFold f l acc = (some c, f c) ∧ f c ≠ 0 ∧ f c < acc.2 ∧
        ∀ d ∈ l, f d ≠ 0 → f c ≤ f d) := by
  induction l with
  | nil =>
    intro acc
    exact Or.inl ⟨rfl, by simp⟩
  | cons x xs ih =>
    intro acc
    by_cases hx : f x < acc.2 ∧ f x ≠ 0
    · have hreq : wsumFold f (x :: xs) acc = wsumFold f xs (some x, f x) := by
        simp only [wsumFold, List.foldl_cons, if_pos hx]
      rcases ih (some x, f x) with ⟨heq, hall⟩ | ⟨c, hc, heq, hne, hlt, hmin⟩
      · right
        refine ⟨x, List.mem_cons_self _ _, by rw [hreq, heq], hx.2, hx.1, ?_⟩
        intro d hd hdne
        rcases List.mem_cons.1 hd with h | h
        · rw [h]
        · have hnd := hall d h
          by_contra hcon
          push_neg at hcon
          exact hnd ⟨hcon, hdne⟩
      · right
        refine ⟨c, List.mem_cons_of_mem _ hc, by rw [hreq, heq], hne,
          lt_trans hlt hx.1, ?_⟩
        intro d hd hdne
        rcases List.mem_cons.1 hd with h | h
        · rw [h]
          exact le_of_lt hlt
        · exact hmin d h hdne
    · have hreq : wsumFold f (x :: xs) acc = wsumFold f xs acc := by
        simp only [wsumFold, List.foldl_cons, if_neg hx]
      rcases ih acc with ⟨heq, hall⟩ | ⟨c, hc, heq, hne, hlt, hmin⟩
      · left
        refine ⟨by rw [hreq, heq], ?_⟩
        intro d hd
        rcases List.mem_cons.1 hd with h | h
        · rw [h]
          exact hx
        · exact hall d h
      · right
        refine ⟨c, List.mem_cons_of_mem _ hc, by rw [hreq, heq], hne, hlt, ?_⟩
        intro d hd hdne
        rcases List.mem_cons.1 hd with h | h
        · rw [h] at hdne ⊢
          have hge : acc.2 ≤ f x := by
            by_contra hcon
            push_neg at hcon
            exact hx ⟨hcon, hdne⟩
          exact le_of_lt (lt_of_lt_of_le hlt hge)
        · exact hmin d h hdne

/-- Claim C3 (corrected): ai_heatmap_wsum scans only the up-to-8 in-bounds
neighbours (never the centre), keeps the first strict minimum among candidates
whose weighted-sum score is nonzero and below fMAX, and yields no move exactly
when every candidate scores zero or at least fMAX.  (The original claim's
9-candidate set with a plain global minimum and a fall-through exactly at
minimum 0 is refuted by C3_counterexample.) -/
theorem C3_wsum_scan {W H : Nat} (m : Mobile) (pos : Point) (maps : Maps W H)
    (world : World W H) :
    (Mobile.ai_heatmap_wsum W H m pos maps world = none →
      ∀ d ∈ nbrCellsNoSelf W H pos,
        wsumScore W H m maps (locallyVisible W H pos world) d = 0 ∨
        fMAX ≤ wsumScore W H m maps (locallyVisible W H pos world) d) ∧
    (∀ c : Point, Mobile.ai_heatmap_wsum W H m pos maps world = some c →
      c ∈ nbrCellsNoSelf W H pos ∧
      wsumScore W H m maps (locallyVisible W H pos world) c ≠ 0 ∧
      wsumScore W H m maps (locallyVisible W H pos world) c < fMAX ∧
      ∀ d ∈ nbrCellsNoSelf W H pos,
        wsumScore W H m maps (locallyVisible W H pos world) d ≠ 0 →
        wsumScore W H m maps (locallyVisible W H pos world) c ≤
          wsumScore W H m maps (locallyVisible W H pos world) d) := by
  have heq : Mobile.ai_heatmap_wsum W H m pos maps world =
      (wsumFold (wsumScore W H m maps (locallyVisible W H pos world))
        (nbrCellsNoSelf W H pos) ((none, fMAX) : Option Point × ℚ)).1 := rfl
  have hspec := wsumFold_spec (wsumScore W H m maps (locallyVisible W H pos world))
    (nbrCellsNoSelf W H pos) ((none, fMAX) : Option Point × ℚ)
  constructor
  · intro hnone d hd
    rcases hspec with ⟨_hacc, hall⟩ | ⟨c, _hc, hres, _, _, _⟩
    · have hnd := hall d hd
      by_cases h0 : wsumScore W H m maps (locallyVisible W H pos world) d = 0
      · exact Or.inl h0
      · right
        by_contra hcon
        push_neg at hcon
        exact hnd ⟨hcon, h0⟩
    · rw [heq, hres] at hnone
      exact absurd hnone (by simp)
  · intro c hc
    rcases hspec with ⟨hacc, _hall⟩ | ⟨c', hc', hres, hne, hlt, hmin⟩
    · rw [heq, hacc] at hc
      exact absurd hc (by simp)
    · rw [heq, hres] at hc
      have hcc : c' = c := by simpa using hc
      rw [hcc] at hc' hres hne hlt hmin
      exact ⟨hc', hne, hlt, hmin⟩

/-- Build a one-row grid from a list of the right length. -/
def grid1 (W : Nat) (row : List ℚ) (h : row.length = W) : Grid W 1 ℚ :=
  ⟨[row], rfl, by
    intro r hr
    rw [List.mem_singleton.1 hr]
    exact h⟩

/-- A 3x1 sustenance map whose approach field is [0, 3, 5]. -/
def mapsus : Map 3 1 := ⟨[], grid1 3 [0, 3, 5] rfl, Grid.new 3 1 fMAX, Grid.new 3 1 fMAX⟩

/-- Test maps holding mapsus under the Sustenance tag. -/
def maps3test : Maps 3 1 := ⟨Map.new 3 1, Map.new 3 1, Map.new 3 1, mapsus⟩

/-- A test mobile with a single unit desire for sustenance. -/
def mobT : Mobile := ⟨false, [(MapTag.Sustenance, 1)]⟩

/-- The original C3 fails: at cell (1,0) of the [0, 3, 5] sustenance field, the
9-candidate minimum score is 0 (at the in-bounds neighbour (0,0)), so the claim
demands a fall-through, yet the stage moves, and to (2,0) whose score is 5 --
not a minimum. -/
theorem C3_counterexample :
    Mobile.ai_heatmap_wsum 3 1 mobT ⟨1, 0⟩ maps3test (wtest 3) = some ⟨2, 0⟩ ∧
    wsumScore 3 1 mobT maps3test (locallyVisible 3 1 ⟨1, 0⟩ (wtest 3)) ⟨0, 0⟩ = 0 ∧
    (⟨0, 0⟩ : Point) ∈ nbrCellsNoSelf 3 1 ⟨1, 0⟩ ∧
    wsumScore 3 1 mobT maps3test (locallyVisible 3 1 ⟨1, 0⟩ (wtest 3)) ⟨2, 0⟩ = 5 := by
  refine ⟨by with_unfolding_all decide, by with_unfolding_all decide, by decide,
    by with_unfolding_all decide⟩

/-- Claim C4: a committed move succeeds exactly when the destination holds no
mobile and no impassable static; success removes the mover from its old cell
and inserts it at the new one, failure leaves the registry unchanged; and when
the computed step is occupied but is the heatmap AI's own choice from that
cell's perspective, the step converts into an interaction at that cell. -/
theorem C4_move_commit_and_goal_conversion {W H : Nat} (m : Mobile) (pos : Point)
    (mobs : Mobs) (maps : Maps W H) (world : World W H) (new_pos : Point) :
    ((Mobile.ai_move_commit W H m pos mobs world new_pos).1 = true ↔
      (mobsGet mobs new_pos).isSome = false ∧
      ((world.statics.at_ new_pos).map (fun s => s.is_impassable)).getD false = false) ∧
    (is_occupied W H new_pos mobs world = false →
      (Mobile.ai_move_commit W H m pos mobs world new_pos).2 =
        mobsInsert (mobsRemove mobs pos) new_pos m) ∧
    (is_occupied W H new_pos mobs world = true →
      (Mobile.ai_move_commit W H m pos mobs world new_pos).2 = mobs) ∧
    (Mobile.ai W H m pos maps world ≠ pos →
      is_occupied W H (Mobile.ai W H m pos maps world) mobs world = true →
      Mobile.ai W H m (Mobile.ai W H m pos maps world) maps world =
        Mobile.ai W H m pos maps world →
      Mobile.step W H m pos mobs maps world =
        (Mobile.interact_at_point W H m pos (Mobile.ai W H m pos maps world) world,
          mobs)) := by
  refine ⟨?_, ?_, ?_, ?_⟩
  · cases h1 : (mobsGet mobs new_pos).isSome <;>
      cases h2 : ((world.statics.at_ new_pos).map (fun s => s.is_impassable)).getD false <;>
      simp [Mobile.ai_move_commit, is_occupied, h1, h2]
  · intro h
    simp [Mobile.ai_move_commit, h]
  · intro h
    simp [Mobile.ai_move_commit, h]
  · intro hne hocc heq
    simp only [Mobile.step, if_neg hne, hocc, if_pos heq, if_true]

/-- The code-bug behind C5 at a concrete input: on the 4x1 line with the map
rebuilt from source (0,0), add_source (3,0) leaves approach[(2,0)] = 2, while
rebuild_from_sources on the enlarged source set gives 1. -/
theorem C5_add_source_diverges_from_rebuild :
    (Map.add_source 4 1 (Map.rebuild_from_sources 4 1 m4test (wtest 4)) ⟨3, 0⟩
      (wtest 4)).approach.at_ ⟨2, 0⟩ = 2 ∧
    (Map.rebuild_from_sources 4 1
      (Map.add_source_no_rebuild 4 1 (Map.rebuild_from_sources 4 1 m4test (wtest 4))
        ⟨3, 0⟩) (wtest 4)).approach.at_ ⟨2, 0⟩ = 1 := by
  constructor
  · have h1 : Map.rebuild_from_sources 4 1 m4test (wtest 4) =
        rebuild_n 4 1 20 m4test (wtest 4) :=
      rebuild_eq_n 4 1 20 m4test (wtest 4) (by with_unfolding_all decide)
    rw [h1]
    have h2 : Map.add_source 4 1 (rebuild_n 4 1 20 m4test (wtest 4)) ⟨3, 0⟩ (wtest 4) =
        add_source_n 4 1 20 (rebuild_n 4 1 20 m4test (wtest 4)) ⟨3, 0⟩ (wtest 4) :=
      add_source_eq_n 4 1 20 _ _ (wtest 4) (by with_unfolding_all decide)
    rw [h2]
    with_unfolding_all decide
  · have h3 : Map.rebuild_from_sources 4 1
        (Map.add_source_no_rebuild 4 1 (Map.rebuild_from_sources 4 1 m4test (wtest 4))
          ⟨3, 0⟩) (wtest 4) = Map.rebuild_from_sources 4 1 m4test2 (wtest 4) :=
      rebuild_eq_of_sources_eq _ _ _ rfl
    rw [h3, rebuild_eq_n 4 1 20 m4test2 (wtest 4) (by with_unfolding_all decide)]
    with_unfolding_all decide

theorem filter_ne_of_not_mem (l : List Point) (c : Point) (h : c ∉ l) :
    l.filter (fun s => s ≠ c) = l := by
  apply List.filter_eq_self.2
  intro a ha
  have hac : a ≠ c := fun hc => h (hc ▸ ha)
  simp [hac]

/-- Claim C6 (corrected: the removed point must not already be a source):
adding a source C and then removing it yields exactly the map a fresh
rebuild_from_sources would produce, so all four components match the map on
which C was never added.  (For C already a source, C6_counterexample refutes
the original claim: remove_source strips every copy.) -/
theorem C6_add_remove_roundtrip {W H : Nat} (m : Map W H) (c : Point)
    (world : World W H) (hc : c ∉ m.sources) :
    Map.remove_source W H (Map.add_source W H m c world) c world =
      Map.rebuild_from_sources W H m world := by
  unfold Map.remove_source
  apply rebuild_eq_of_sources_eq
  show (Map.add_source W H m c world).sources.filter (fun s => s ≠ c) = m.sources
  rw [add_source_sources, List.filter_append, filter_ne_of_not_mem m.sources c hc]
  simp

/-- C6 at a concrete input: the 2x1 single-source map, adding then removing the
other cell restores the rebuilt map. -/
theorem C6_witness :
    Map.remove_source 2 1 (Map.add_source 2 1 m2test ⟨1, 0⟩ (wtest 2)) ⟨1, 0⟩ (wtest 2) =
      Map.rebuild_from_sources 2 1 m2test (wtest 2) :=
  C6_add_remove_roundtrip m2test ⟨1, 0⟩ (wtest 2) (by decide)

/-- The original C6 fails when C is already a source: starting from sources
{A, B} = {(0,0), (1,0)}, adding C = A and removing it leaves sources [B], not
the original [A, B]. -/
theorem C6_counterexample :
    (Map.remove_source 2 1
      (Map.add_source 2 1 (Map.rebuild_from_sources 2 1 mABtest (wtest 2)) ⟨0, 0⟩
        (wtest 2)) ⟨0, 0⟩ (wtest 2)).sources = [⟨1, 0⟩] ∧
    (Map.rebuild_from_sources 2 1 mABtest (wtest 2)).sources = [⟨0, 0⟩, ⟨1, 0⟩] := by
  exact ⟨by decide, by decide⟩

/-- Claim C7 (corrected): the propagator terminates on every in-bounds seed
list, and each commit strictly decreases the committed cell's value; the runs
recompute_flee makes over the flee fields, seeded at the flee-scan minima, are
instances.  (The claimed lower bound 0 on all values is what
C7_counterexample refutes: flee values go negative.) -/
theorem C7_flood_fill_terminates {W H : Nat} (world : World W H) (map : Grid W H ℚ)
    (minima : List Point) (h : ∀ e ∈ minima, inb W H e) :
    (∃ n, ((floodStep W H world)^[n] (⟨map, minima⟩ : FFState W H)).queue = []) ∧
    (∀ s : FFState W H, (∀ e ∈ s.queue, inb W H e) → ∀ p : Point,
      (floodStep W H world s).map.at_ p ≠ s.map.at_ p →
      (floodStep W H world s).map.at_ p < s.map.at_ p) ∧
    (∀ m : Map W H, ∃ n, ((floodStep W H world)^[n]
      (⟨(fleeScan W H m.approach m.flee_cowardly m.flee_bravely).flee_cowardly,
        (fleeScan W H m.approach m.flee_cowardly m.flee_bravely).minima⟩ :
          FFState W H)).queue = []) := by
  refine ⟨flood_terminates W H world ⟨map, minima⟩ h, ?_, ?_⟩
  · intro s hq p hchange
    cases hqe : s.queue with
    | nil =>
      rw [floodStep_empty _ _ hqe] at hchange
      exact absurd rfl hchange
    | cons pos rest =>
      have hpos : inb W H pos := hq pos (by rw [hqe]; exact List.mem_cons_self _ _)
      by_cases hcm : foldMin s.map.at_ (s.map.at_ pos) (nbrCells W H pos) + 1 <
          s.map.at_ pos
      · rw [floodStep_commit world s pos rest hqe hcm] at hchange ⊢
        by_cases hpp : p = pos
        · rw [hpp] at hchange ⊢
          rw [Grid.at_set_self _ _ _ hpos.1 hpos.2]
          exact hcm
        · rw [Grid.at_set_ne _ _ _ _ hpp] at hchange
          exact absurd rfl hchange
      · by_cases h0 : s.map.at_ pos = 0
        · rw [floodStep_zero world s pos rest hqe hcm h0] at hchange
          exact absurd rfl hchange
        · rw [floodStep_nothing world s pos rest hqe hcm h0] at hchange
          exact absurd rfl hchange
  · intro m
    exact flood_terminates W H world _ (fleeScan_minima_inb _ _ _)

/-- C7 at a concrete input: the 1x1 zero grid seeded at its only cell. -/
theorem C7_witness :
    (∃ n, ((floodStep 1 1 (wtest 1))^[n]
      (⟨Grid.new 1 1 0, [⟨0, 0⟩]⟩ : FFState 1 1)).queue = []) ∧
    (∀ s : FFState 1 1, (∀ e ∈ s.queue, inb 1 1 e) → ∀ p : Point,
      (floodStep 1 1 (wtest 1) s).map.at_ p ≠ s.map.at_ p →
      (floodStep 1 1 (wtest 1) s).map.at_ p < s.map.at_ p) ∧
    (∀ m : Map 1 1, ∃ n, ((floodStep 1 1 (wtest 1))^[n]
      (⟨(fleeScan 1 1 m.approach m.flee_cowardly m.flee_bravely).flee_cowardly,
        (fleeScan 1 1 m.approach m.flee_cowardly m.flee_bravely).minima⟩ :
          FFState 1 1)).queue = []) :=
  C7_flood_fill_terminates (wtest 1) (Grid.new 1 1 0) [⟨0, 0⟩] (by decide)

/-- The original C7's premise that all values stay bounded below by 0 fails:
the rebuilt 3x1 single-source map's flee_cowardly field is negative at (1,0). -/
theorem C7_counterexample :
    (Map.rebuild_from_sources 3 1 m3test (wtest 3)).flee_cowardly.at_ ⟨1, 0⟩ < 0 := by
  rw [rebuild_eq_n 3 1 20 m3test (wtest 3) (by with_unfolding_all decide)]
  with_unfolding_all decide

/-- Claim C8: rebuild_from_sources is idempotent: the three fields it computes
depend only on the source list, which it preserves, so a second call leaves
the whole map (sources and all three grids) identical. -/
theorem C8_rebuild_idempotent {W H : Nat} (m : Map W H) (world : World W H) :
    Map.rebuild_from_sources W H (Map.rebuild_from_sources W H m world) world =
      Map.rebuild_from_sources W H m world :=
  rebuild_eq_of_sources_eq _ _ world rfl

/-- Claim C9: the guarded 3x3 neighbourhood enumerations (the propagator's,
which keeps the centre, and the AI's, which drops it) only ever produce
in-bounds points, so every grid access they feed is in bounds. -/
theorem C9_neighbors_in_bounds {W H : Nat} (p : Point) (hp : inb W H p) :
    (∀ q ∈ nbrCells W H p, inb W H q) ∧ (∀ q ∈ nbrCellsNoSelf W H p, inb W H q) := by
  constructor
  · intro q hq
    exact nbrCells_inb hp hq
  · intro q hq
    exact ((mem_nbrCellsNoSelf q hp).1 hq).1

/-- C9 at a concrete input: the corner (0,0) of the real 200x100 grid. -/
theorem C9_witness :
    (∀ q ∈ nbrCells 200 100 ⟨0, 0⟩, inb 200 100 q) ∧
    (∀ q ∈ nbrCellsNoSelf 200 100 ⟨0, 0⟩, inb 200 100 q) :=
  C9_neighbors_in_bounds ⟨0, 0⟩ (by decide)

/-- Claim C10: grid read/write laws: setting an in-bounds point then reading it
back gives the written value, and every other in-bounds point reads as before. -/
theorem C10_grid_set_frame {W H : Nat} {α : Type} [Inhabited α] (g : Grid W H α)
    (p : Point) (v : α) (hp : inb W H p) :
    (g.set p v).at_ p = v ∧
    ∀ q : Point, inb W H q → q ≠ p → (g.set p v).at_ q = g.at_ q := by
  refine ⟨Grid.at_set_self g p v hp.1 hp.2, ?_⟩
  intro q _ hqp
  exact Grid.at_set_ne g p q v hqp

/-- C10 at a concrete input: a 2x1 natural-number grid written at (0,0). -/
theorem C10_witness :
    ((Grid.new 2 1 (0 : ℕ)).set ⟨0, 0⟩ 5).at_ ⟨0, 0⟩ = 5 ∧
    ∀ q : Point, inb 2 1 q → q ≠ ⟨0, 0⟩ →
      ((Grid.new 2 1 (0 : ℕ)).set ⟨0, 0⟩ 5).at_ q = (Grid.new 2 1 (0 : ℕ)).at_ q :=
  C10_grid_set_frame (Grid.new 2 1 0) ⟨0, 0⟩ 5 (by decide)

end RogueMayor
